import Mathlib

/-!
Verification of the identity-reconciliation and information-merge engine of the
ddc-hi display-control library, as a shallow embedding in Lean.

Strings are modelled as lists of characters (`Str`); Rust `u8`/`u16`/`u32`/`u64`
quantities only ever flow through the modelled code unmodified (they are copied,
compared and printed, never arithmetically combined), so they are modelled as
`Nat`.  External crates (EDID parsing, the MCCS feature database) are modelled
as an explicit environment of pure functions (`MergeEnv`), universally
quantified in the theorems.  Fallible Rust code returns `Except`/`Option`;
a Rust panic (`unwrap`/`todo!`) is modelled as `Option.none` at the point of
the corresponding enumeration pass.
-/

namespace DdcHi

/-- Strings, modelled as lists of characters. -/
abbrev Str := List Char

/-- Convert a Lean string literal to the character-list model. -/
def chars (s : String) : Str := s.data

/-! ## Identifier sanitization (src/enumerate.rs, `IdRegistry::sanitize_id`) -/

/-- A character replaced or removed by `sanitize_id`: backslash or brace. -/
def specialChar (c : Char) : Bool := c = '\\' || c = '{' || c = '}'

/-- `id.contains(&['\\', '{', '}'])`. -/
def hasSpecial (s : Str) : Bool := s.any specialChar

/-- One character of `id.replace("\\", "/")`. -/
def slashMap (c : Char) : Char := if c = '\\' then '/' else c

/-- A character removed by `id.replace(&['{', '}'], "")`. -/
def braceChar (c : Char) : Bool := c = '{' || c = '}'

/-- `IdRegistry::sanitize_id`: if the string contains a backslash or a brace,
replace every backslash by a slash and delete every brace; otherwise return the
string unchanged. -/
def sanitize_id (s : Str) : Str :=
  if hasSpecial s then (s.map slashMap).filter (fun c => !braceChar c) else s

/-! ## Decimal rendering of numbers (Rust `format!("{}", n)` on unsigned ints) -/

/-- The decimal digit character for a value below ten. -/
def digitChar (n : Nat) : Char :=
  match n with
  | 0 => '0' | 1 => '1' | 2 => '2' | 3 => '3' | 4 => '4'
  | 5 => '5' | 6 => '6' | 7 => '7' | 8 => '8' | _ => '9'

/-- Fuel-driven decimal rendering; the fuel only serves structural recursion
and is always sufficient at the call site in `natRepr`. -/
def natReprAux : Nat → Nat → Str
  | 0, _ => []
  | fuel+1, n => if n < 10 then [digitChar n] else natReprAux fuel (n / 10) ++ [digitChar (n % 10)]

/-- Decimal representation of a natural number, as produced by `format!`. -/
def natRepr (n : Nat) : Str := natReprAux (n + 1) n

/-- Decimal digit value of a character; ten for non-digits. -/
def digitVal (c : Char) : Nat :=
  if c = '0' then 0 else if c = '1' then 1 else if c = '2' then 2 else
  if c = '3' then 3 else if c = '4' then 4 else if c = '5' then 5 else
  if c = '6' then 6 else if c = '7' then 7 else if c = '8' then 8 else
  if c = '9' then 9 else 10

/-- Read a digit string back as a number (proof device for injectivity). -/
def strVal (s : Str) : Nat := s.foldl (fun a c => a * 10 + digitVal c) 0

/-- Whether a character is a decimal digit. -/
def isDig (c : Char) : Bool := '0' ≤ c && c ≤ '9'

theorem digitVal_digitChar {n : Nat} (h : n < 10) : digitVal (digitChar n) = n := by
  interval_cases n <;> rfl

theorem isDig_digitChar {n : Nat} (h : n < 10) : isDig (digitChar n) = true := by
  interval_cases n <;> rfl

theorem strVal_append_one (s : Str) (c : Char) :
    strVal (s ++ [c]) = strVal s * 10 + digitVal c := by
  simp [strVal, List.foldl_append]

theorem natReprAux_strVal : ∀ fuel n, n < fuel → strVal (natReprAux fuel n) = n := by
  intro fuel
  induction fuel with
  | zero => intro n h; omega
  | succ fuel ih =>
    intro n h
    by_cases h10 : n < 10
    · simp [natReprAux, h10, strVal, digitVal_digitChar h10]
    · have hdiv : n / 10 < fuel := by
        have h1 : n / 10 < n := Nat.div_lt_self (by omega) (by omega)
        omega
      simp only [natReprAux, if_neg h10]
      rw [strVal_append_one, ih _ hdiv, digitVal_digitChar (Nat.mod_lt _ (by omega))]
      omega

theorem strVal_natRepr (n : Nat) : strVal (natRepr n) = n :=
  natReprAux_strVal (n + 1) n (Nat.lt_succ_self n)

theorem natRepr_inj {a b : Nat} (h : natRepr a = natRepr b) : a = b := by
  have := strVal_natRepr a
  rw [h, strVal_natRepr] at this
  omega

theorem isDig_of_mem_natReprAux : ∀ fuel n c, c ∈ natReprAux fuel n → isDig c = true := by
  intro fuel
  induction fuel with
  | zero => intro n c h; simp [natReprAux] at h
  | succ fuel ih =>
    intro n c h
    by_cases h10 : n < 10
    · simp [natReprAux, h10] at h
      subst h; exact isDig_digitChar h10
    · simp only [natReprAux, if_neg h10, List.mem_append, List.mem_singleton] at h
      rcases h with h | h
      · exact ih _ _ h
      · subst h; exact isDig_digitChar (Nat.mod_lt _ (by omega))

theorem isDig_of_mem_natRepr {n : Nat} {c : Char} (h : c ∈ natRepr n) : isDig c = true :=
  isDig_of_mem_natReprAux (n + 1) n c h

theorem natRepr_ne_nil (n : Nat) : natRepr n ≠ [] := by
  unfold natRepr natReprAux
  by_cases h10 : n < 10 <;> simp [h10]

/-- Digits are not sanitized away: no decimal digit is a backslash or a brace. -/
theorem specialChar_eq_false_of_isDig {c : Char} (h : isDig c = true) :
    specialChar c = false := by
  simp only [isDig, Bool.and_eq_true, decide_eq_true_eq] at h
  simp only [specialChar, Bool.or_eq_false_iff, decide_eq_false_iff_not]
  refine ⟨⟨?_, ?_⟩, ?_⟩ <;> rintro rfl <;> revert h <;> decide

/-! ## The MCCS data model (external crates `mccs`, `mccs-db`, modelled) -/

/-- `mccs::Version` (major/minor pair; the Rust fields are `u8`). -/
structure Version where
  major : Nat
  minor : Nat
deriving DecidableEq

/-- The derived ordering of `mccs::Version` (lexicographic, as `derive(Ord)`). -/
def Version.lt (a b : Version) : Prop :=
  a.major < b.major ∨ (a.major = b.major ∧ a.minor < b.minor)

instance : DecidablePred fun p : Version × Version => Version.lt p.1 p.2 := by
  intro p; unfold Version.lt; infer_instance

instance (a b : Version) : Decidable (Version.lt a b) := by
  unfold Version.lt; infer_instance

/-- `mccs_db::Database`, modelled as an association list from VCP feature code
to an abstract feature descriptor; `get` is first-match lookup. -/
abbrev Db := List (Nat × Nat)

/-- `Database::get(code)`. -/
def dbGet (db : Db) (code : Nat) : Option Nat := db.lookup code

/-- `Backend` (src/backend.rs). -/
inductive Backend where
  | I2cDevice
  | WinApi
  | Nvapi
  | MacOS
deriving DecidableEq

/-! ## `DisplayInfo` (src/display_info.rs) -/

/-- `DisplayInfo`: every field except `backend`/`id` is optional. -/
structure DisplayInfo where
  backend : Backend
  id : Str
  manufacturer_id : Option Str
  model_id : Option Nat
  version : Option (Nat × Nat)
  serial : Option Nat
  manufacture_year : Option Nat
  manufacture_week : Option Nat
  model_name : Option Str
  serial_number : Option Str
  edid_data : Option (List Nat)
  mccs_version : Option Version
  mccs_database : Db
deriving DecidableEq

/-- `DisplayInfo::new`. -/
def DisplayInfo.new (backend : Backend) (id : Str) : DisplayInfo :=
  { backend := backend, id := id, manufacturer_id := none, model_id := none,
    version := none, serial := none, manufacture_year := none,
    manufacture_week := none, model_name := none, serial_number := none,
    edid_data := none, mccs_version := none, mccs_database := [] }

/-!
`DisplayInfo::update_from` is a sequence of in-place statements; each Rust
statement `if self.f.is_none() { self.f = info.f.clone() }` is one named step
below, and `update_from` is their composition in source order.
-/

/-- Statement 1 of `update_from`. -/
def updManufacturerId (a info : DisplayInfo) : DisplayInfo :=
  if a.manufacturer_id.isNone then { a with manufacturer_id := info.manufacturer_id } else a

/-- Statement 2 of `update_from`. -/
def updModelId (a info : DisplayInfo) : DisplayInfo :=
  if a.model_id.isNone then { a with model_id := info.model_id } else a

/-- Statement 3 of `update_from`. -/
def updVersion (a info : DisplayInfo) : DisplayInfo :=
  if a.version.isNone then { a with version := info.version } else a

/-- Statement 4 of `update_from`. -/
def updSerial (a info : DisplayInfo) : DisplayInfo :=
  if a.serial.isNone then { a with serial := info.serial } else a

/-- Statement 5 of `update_from`. -/
def updYear (a info : DisplayInfo) : DisplayInfo :=
  if a.manufacture_year.isNone then { a with manufacture_year := info.manufacture_year } else a

/-- Statement 6 of `update_from`. -/
def updWeek (a info : DisplayInfo) : DisplayInfo :=
  if a.manufacture_week.isNone then { a with manufacture_week := info.manufacture_week } else a

/-- Statement 7 of `update_from`. -/
def updModelName (a info : DisplayInfo) : DisplayInfo :=
  if a.model_name.isNone then { a with model_name := info.model_name } else a

/-- Statement 8 of `update_from`. -/
def updSerialNumber (a info : DisplayInfo) : DisplayInfo :=
  if a.serial_number.isNone then { a with serial_number := info.serial_number } else a

/-- Statement 9 of `update_from`. -/
def updEdidData (a info : DisplayInfo) : DisplayInfo :=
  if a.edid_data.isNone then { a with edid_data := info.edid_data } else a

/-- Statement 10 of `update_from`. -/
def updMccsVersion (a info : DisplayInfo) : DisplayInfo :=
  if a.mccs_version.isNone then { a with mccs_version := info.mccs_version } else a

/-- Final statement of `update_from`: if the target database has no entry for
the VCP-version feature code `0xdf`, adopt `info`'s version (when present) and
replace the database wholesale. -/
def updReset (a info : DisplayInfo) : DisplayInfo :=
  if (dbGet a.mccs_database 0xdf).isNone then
    let a := if info.mccs_version.isSome then { a with mccs_version := info.mccs_version } else a
    { a with mccs_database := info.mccs_database }
  else a

/-- `DisplayInfo::update_from`: merge in any missing information from `info`. -/
def DisplayInfo.update_from (a info : DisplayInfo) : DisplayInfo :=
  updReset (updMccsVersion (updEdidData (updSerialNumber (updModelName (updWeek (updYear
    (updSerial (updVersion (updModelId (updManufacturerId a info) info) info) info) info)
      info) info) info) info) info) info

/-- `if x.is_none() { x = y }` on one optional field. -/
def fillO {α : Type _} (x y : Option α) : Option α := if x.isNone then y else x

theorem fillO_self {α : Type _} (x : Option α) : fillO x x = x := by
  cases x <;> rfl

theorem fillO_isSome {α : Type _} {x y : Option α} {v : α} (h : x = some v) :
    fillO x y = x := by subst h; rfl

theorem updManufacturerId_eq (a b : DisplayInfo) :
    updManufacturerId a b = { a with manufacturer_id := fillO a.manufacturer_id b.manufacturer_id } := by
  unfold updManufacturerId fillO
  split <;> simp_all

theorem updModelId_eq (a b : DisplayInfo) :
    updModelId a b = { a with model_id := fillO a.model_id b.model_id } := by
  unfold updModelId fillO
  split <;> simp_all

theorem updVersion_eq (a b : DisplayInfo) :
    updVersion a b = { a with version := fillO a.version b.version } := by
  unfold updVersion fillO
  split <;> simp_all

theorem updSerial_eq (a b : DisplayInfo) :
    updSerial a b = { a with serial := fillO a.serial b.serial } := by
  unfold updSerial fillO
  split <;> simp_all

theorem updYear_eq (a b : DisplayInfo) :
    updYear a b = { a with manufacture_year := fillO a.manufacture_year b.manufacture_year } := by
  unfold updYear fillO
  split <;> simp_all

theorem updWeek_eq (a b : DisplayInfo) :
    updWeek a b = { a with manufacture_week := fillO a.manufacture_week b.manufacture_week } := by
  unfold updWeek fillO
  split <;> simp_all

theorem updModelName_eq (a b : DisplayInfo) :
    updModelName a b = { a with model_name := fillO a.model_name b.model_name } := by
  unfold updModelName fillO
  split <;> simp_all

theorem updSerialNumber_eq (a b : DisplayInfo) :
    updSerialNumber a b = { a with serial_number := fillO a.serial_number b.serial_number } := by
  unfold updSerialNumber fillO
  split <;> simp_all

theorem updEdidData_eq (a b : DisplayInfo) :
    updEdidData a b = { a with edid_data := fillO a.edid_data b.edid_data } := by
  unfold updEdidData fillO
  split <;> simp_all

theorem updMccsVersion_eq (a b : DisplayInfo) :
    updMccsVersion a b = { a with mccs_version := fillO a.mccs_version b.mccs_version } := by
  unfold updMccsVersion fillO
  split <;> simp_all

theorem updReset_eq (a b : DisplayInfo) :
    updReset a b =
      if (dbGet a.mccs_database 0xdf).isNone then
        { a with
          mccs_version := if b.mccs_version.isSome then b.mccs_version else a.mccs_version,
          mccs_database := b.mccs_database }
      else a := by
  unfold updReset
  split_ifs <;> rfl

/-- Closed form of `update_from`: each ordinary optional field is filled only
when absent; the version/database pair is replaced exactly when the target
database lacks an entry for the feature code `0xdf`. -/
theorem update_from_eq (a b : DisplayInfo) :
    a.update_from b =
      if (dbGet a.mccs_database 0xdf).isNone then
        { backend := a.backend, id := a.id,
          manufacturer_id := fillO a.manufacturer_id b.manufacturer_id,
          model_id := fillO a.model_id b.model_id,
          version := fillO a.version b.version,
          serial := fillO a.serial b.serial,
          manufacture_year := fillO a.manufacture_year b.manufacture_year,
          manufacture_week := fillO a.manufacture_week b.manufacture_week,
          model_name := fillO a.model_name b.model_name,
          serial_number := fillO a.serial_number b.serial_number,
          edid_data := fillO a.edid_data b.edid_data,
          mccs_version := if b.mccs_version.isSome then b.mccs_version
            else fillO a.mccs_version b.mccs_version,
          mccs_database := b.mccs_database }
      else
        { backend := a.backend, id := a.id,
          manufacturer_id := fillO a.manufacturer_id b.manufacturer_id,
          model_id := fillO a.model_id b.model_id,
          version := fillO a.version b.version,
          serial := fillO a.serial b.serial,
          manufacture_year := fillO a.manufacture_year b.manufacture_year,
          manufacture_week := fillO a.manufacture_week b.manufacture_week,
          model_name := fillO a.model_name b.model_name,
          serial_number := fillO a.serial_number b.serial_number,
          edid_data := fillO a.edid_data b.edid_data,
          mccs_version := fillO a.mccs_version b.mccs_version,
          mccs_database := a.mccs_database } := by
  simp only [DisplayInfo.update_from, updManufacturerId_eq, updModelId_eq, updVersion_eq,
    updSerial_eq, updYear_eq, updWeek_eq, updModelName_eq, updSerialNumber_eq,
    updEdidData_eq, updMccsVersion_eq, updReset_eq]

/-! ## Sanitization lemmas -/

theorem sanitize_id_of_clean {s : Str} (h : hasSpecial s = false) : sanitize_id s = s := by
  simp [sanitize_id, h]

theorem specialChar_split {c : Char} (h : specialChar c = false) :
    ¬c = '\\' ∧ ¬c = '{' ∧ ¬c = '}' := by
  simp only [specialChar, Bool.or_eq_false_iff, decide_eq_false_iff_not] at h
  exact ⟨h.1.1, h.1.2, h.2⟩

theorem hasSpecial_sanitize_id (s : Str) : hasSpecial (sanitize_id s) = false := by
  unfold sanitize_id
  by_cases h : hasSpecial s
  · simp only [h, if_true]
    simp only [hasSpecial, List.any_eq_false]
    intro c hc
    simp only [List.mem_filter, List.mem_map] at hc
    obtain ⟨⟨c0, _, rfl⟩, hkeep⟩ := hc
    by_cases hb : c0 = '\\'
    · simp [hb, slashMap, specialChar]
    · have hk : ¬c0 = '{' ∧ ¬c0 = '}' := by
        simpa [slashMap, hb, braceChar] using hkeep
      simp [slashMap, hb, specialChar, hk.1, hk.2]
  · simp only [Bool.not_eq_true] at h
    simp [h]

theorem mapIdOn {f : Char → Char} : ∀ (p : Str), (∀ c ∈ p, f c = c) → p.map f = p := by
  intro p
  induction p with
  | nil => intro _; rfl
  | cons c p ih =>
    intro h
    simp only [List.map_cons, h c (List.mem_cons_self c p),
      ih (fun d hd => h d (List.mem_cons_of_mem c hd))]

theorem filterAllOn {g : Char → Bool} : ∀ (p : Str), (∀ c ∈ p, g c = true) → p.filter g = p := by
  intro p
  induction p with
  | nil => intro _; rfl
  | cons c p ih =>
    intro h
    simp only [List.filter_cons, h c (List.mem_cons_self c p), if_true,
      ih (fun d hd => h d (List.mem_cons_of_mem c hd))]

/-- A string of non-special characters is untouched by sanitization even when
appended to: sanitizing `p ++ s` keeps the leading part `p` verbatim. -/
theorem sanitize_id_append {p : Str} (hp : ∀ c ∈ p, specialChar c = false) (s : Str) :
    ∃ t, sanitize_id (p ++ s) = p ++ t := by
  unfold sanitize_id
  by_cases h : hasSpecial (p ++ s)
  · simp only [h, if_true, List.map_append, List.filter_append]
    refine ⟨(s.map slashMap).filter (fun c => !braceChar c), ?_⟩
    have hmap : p.map slashMap = p := by
      apply mapIdOn
      intro c hc
      have hs := specialChar_split (hp c hc)
      simp [slashMap, hs.1]
    have hfil : p.filter (fun c => !braceChar c) = p := by
      apply filterAllOn
      intro c hc
      have hs := specialChar_split (hp c hc)
      simp [braceChar, hs.2.1, hs.2.2]
    rw [hmap, hfil]
  · simp only [Bool.not_eq_true] at h
    exact ⟨s, by simp [h]⟩

theorem hasSpecial_append_eq_false {p s : Str} (hp : ∀ c ∈ p, specialChar c = false)
    (hs : hasSpecial s = false) : hasSpecial (p ++ s) = false := by
  simp only [hasSpecial, List.any_eq_false, List.mem_append] at *
  rintro c (hc | hc)
  · simp [hp c hc]
  · simp [hs c hc]

theorem hasSpecial_natRepr (n : Nat) : hasSpecial (natRepr n) = false := by
  simp only [hasSpecial, List.any_eq_false]
  intro c hc
  simp [specialChar_eq_false_of_isDig (isDig_of_mem_natRepr hc)]

/-! ## Claim C9: sanitization idempotence -/

/-- C9: `sanitize_id` is idempotent, and a string containing neither a
backslash nor a brace is returned unchanged. -/
theorem sanitize_id_idem (s : Str) :
    sanitize_id (sanitize_id s) = sanitize_id s ∧
      (hasSpecial s = false → sanitize_id s = s) :=
  ⟨sanitize_id_of_clean (hasSpecial_sanitize_id s), fun h => sanitize_id_of_clean h⟩

/-- Witness for C9 at the concrete strings `"a\\b{c}"` and `"mon:3"`. -/
theorem sanitize_id_idem_witness :
    sanitize_id (sanitize_id (chars "a\\b{c}")) = sanitize_id (chars "a\\b{c}") ∧
      sanitize_id (chars "mon:3") = chars "mon:3" :=
  ⟨(sanitize_id_idem (chars "a\\b{c}")).1,
    (sanitize_id_idem (chars "mon:3")).2 (by decide)⟩

/-! ## Claim C8: merge idempotence -/

/-- C8: merging a `DisplayInfo` record into itself changes nothing, including
the version/database pair under the reset branch. -/
theorem update_from_self (a : DisplayInfo) : a.update_from a = a := by
  rw [update_from_eq]
  by_cases h : (dbGet a.mccs_database 0xdf).isNone <;>
    by_cases hv : a.mccs_version.isSome <;>
      simp_all [fillO_self] <;>
        rw [← hv]

/-! ## Claim C10: merge does not touch identity or backend -/

/-- C10: `update_from` never alters the `backend` or `id` field of the target;
only the optional fields and the feature database are written. -/
theorem update_from_frame (a b : DisplayInfo) :
    (a.update_from b).backend = a.backend ∧ (a.update_from b).id = a.id := by
  rw [update_from_eq]
  by_cases h : (dbGet a.mccs_database 0xdf).isNone <;> simp [h]

/-! ## Claim C2: merge monotonicity and the reset rule -/

/-- The incoming record carries a strictly newer negotiated protocol version.
(`None` incoming is never newer; any version is newer than no version.) -/
def incomingNewer (a b : DisplayInfo) : Prop :=
  match a.mccs_version, b.mccs_version with
  | some va, some vb => Version.lt va vb
  | none, some _ => True
  | _, none => False

instance (a b : DisplayInfo) : Decidable (incomingNewer a b) := by
  unfold incomingNewer
  rcases a.mccs_version with _ | va <;> rcases b.mccs_version with _ | vb <;>
    simp <;> infer_instance

/-- Every optional field outside the version/database pair only goes from
`None` to `Some`, never the reverse, and a `Some` value is never changed. -/
def fillsOnlyOutsidePair (a r : DisplayInfo) : Prop :=
  (∀ v, a.manufacturer_id = some v → r.manufacturer_id = some v) ∧
  (∀ v, a.model_id = some v → r.model_id = some v) ∧
  (∀ v, a.version = some v → r.version = some v) ∧
  (∀ v, a.serial = some v → r.serial = some v) ∧
  (∀ v, a.manufacture_year = some v → r.manufacture_year = some v) ∧
  (∀ v, a.manufacture_week = some v → r.manufacture_week = some v) ∧
  (∀ v, a.model_name = some v → r.model_name = some v) ∧
  (∀ v, a.serial_number = some v → r.serial_number = some v) ∧
  (∀ v, a.edid_data = some v → r.edid_data = some v)

/-- Claim C2 exactly as stated: `update_from` fills only absent fields, and the
version/database pair is replaced only when the incoming source carries a newer
negotiated protocol version. -/
def claimC2 : Prop :=
  ∀ a b : DisplayInfo,
    fillsOnlyOutsidePair a (a.update_from b) ∧
      (¬ incomingNewer a b →
        (a.update_from b).mccs_version = a.mccs_version ∧
          (a.update_from b).mccs_database = a.mccs_database)

/-- A target record with a database lacking the `0xdf` entry and a negotiated
version of `2.0`. -/
def c2TargetRec : DisplayInfo :=
  { backend := Backend.WinApi, id := [], manufacturer_id := none, model_id := none,
    version := none, serial := none, manufacture_year := none,
    manufacture_week := none, model_name := none, serial_number := none,
    edid_data := none, mccs_version := some ⟨2, 0⟩, mccs_database := [] }

/-- An incoming record carrying the *older* version `1.0` and a database that
does contain the `0xdf` entry. -/
def c2IncomingRec : DisplayInfo :=
  { backend := Backend.WinApi, id := [], manufacturer_id := none, model_id := none,
    version := none, serial := none, manufacture_year := none,
    manufacture_week := none, model_name := none, serial_number := none,
    edid_data := none, mccs_version := some ⟨1, 0⟩, mccs_database := [(0xdf, 0)] }

/-- Counterexample to C2 as stated: a target whose database lacks the `0xdf`
entry has its version `2.0` overwritten by an incoming *older* version `1.0`
and its database replaced, because the reset rule is keyed on the target
database missing the version feature, not on a version comparison. -/
theorem claimC2_counterexample : ¬ claimC2 := fun h =>
  absurd ((h c2TargetRec c2IncomingRec).2 (by decide)) (by decide)

/-- C2 as amended: field-level monotonic fill for every ordinary optional
field, and the version/database pair is replaced wholesale by `b`'s values
(the version only when `b` has one) exactly when `a`'s feature database lacks
an entry for the VCP-version feature code `0xdf` — regardless of whether `b`'s
version is newer. -/
theorem update_from_monotone (a b : DisplayInfo) :
    ((a.update_from b).manufacturer_id = fillO a.manufacturer_id b.manufacturer_id ∧
      (a.update_from b).model_id = fillO a.model_id b.model_id ∧
      (a.update_from b).version = fillO a.version b.version ∧
      (a.update_from b).serial = fillO a.serial b.serial ∧
      (a.update_from b).manufacture_year = fillO a.manufacture_year b.manufacture_year ∧
      (a.update_from b).manufacture_week = fillO a.manufacture_week b.manufacture_week ∧
      (a.update_from b).model_name = fillO a.model_name b.model_name ∧
      (a.update_from b).serial_number = fillO a.serial_number b.serial_number ∧
      (a.update_from b).edid_data = fillO a.edid_data b.edid_data) ∧
    (a.update_from b).mccs_database =
      (if (dbGet a.mccs_database 0xdf).isNone then b.mccs_database else a.mccs_database) ∧
    (a.update_from b).mccs_version =
      (if (dbGet a.mccs_database 0xdf).isNone ∧ b.mccs_version.isSome then b.mccs_version
        else fillO a.mccs_version b.mccs_version) := by
  rw [update_from_eq]
  by_cases h : (dbGet a.mccs_database 0xdf).isNone <;>
    by_cases hb : b.mccs_version.isSome <;>
      simp [h, hb]

/-! ## The error taxonomy (src/error.rs) -/

/-- A backend-wrapped transport error; the payload identifies the faulting
backend, with an abstract tag for the underlying native error. -/
structure BackendError where
  backend : Backend
  tag : Nat
deriving DecidableEq

/-- `Error` (src/error.rs). Abstract tags stand for the wrapped `io::Error`
payloads of the two parse-error variants. -/
inductive Error where
  | UnsupportedOp
  | EdidParseError (tag : Nat)
  | CapabilitiesReadError (e : BackendError)
  | CapabilitiesParseError (tag : Nat)
  | LowLevelError (e : BackendError)
deriving DecidableEq

/-- `Error::unsupported_ok`: map `Err(UnsupportedOp)` to `Ok(None)`, `Ok(v)` to
`Ok(Some(v))`, and pass every other error through unchanged. -/
def Error.unsupported_ok {α : Type _} (res : Except Error α) : Except Error (Option α) :=
  match res with
  | .error .UnsupportedOp => .ok none
  | .ok v => .ok (some v)
  | .error e => .error e

/-! ## The EDID pre-fetch step of `Display::enumerate` (src/enumerate.rs) -/

/-- One enumerated display, reduced to the data relevant to identity claims:
its backend tag and its assigned id. -/
structure EnumDisplay where
  backend : Backend
  id : Str
deriving DecidableEq

/-- The per-display match in `Display::enumerate` on the result of the EDID
pre-fetch: `Ok(())` and `Err(UnsupportedOp)` keep the display, and any other
error is logged and the display kept as well; no arm drops the display or
surfaces an error. -/
def edidStep (display : EnumDisplay) (res : Except Error Unit) : EnumDisplay :=
  match res with
  | .ok () => display
  | .error .UnsupportedOp => display
  | .error _ => display

/-- The collect phase of `Display::enumerate`: apply the EDID pre-fetch match
to each successfully enumerated display and drop backend errors (logging
them), never failing the whole pass. -/
def enumerateCollect (l : List (Except BackendError (EnumDisplay × Except Error Unit))) :
    List EnumDisplay :=
  l.filterMap (fun item =>
    match item with
    | .ok (d, res) => some (edidStep d res)
    | .error _ => none)

/-! ## Claim C6: unsupported operations are success-with-no-data -/

/-- C6: `unsupported_ok` maps `Err(UnsupportedOp)` to `Ok(None)`, `Ok(v)` to
`Ok(Some(v))` and leaves any other error unchanged; and `Display::enumerate`
keeps a display whose EDID pre-fetch failed with `UnsupportedOp` exactly as if
the fetch had returned `Ok(())` — the display is not dropped and no error is
returned. -/
theorem unsupported_ok_spec :
    (∀ (α : Type) (v : α), Error.unsupported_ok (.ok v) = .ok (some v)) ∧
    (∀ (α : Type), Error.unsupported_ok (α := α) (.error .UnsupportedOp) = .ok none) ∧
    (∀ (α : Type) (e : Error), e ≠ .UnsupportedOp →
      Error.unsupported_ok (α := α) (.error e) = .error e) ∧
    (∀ pre post d, enumerateCollect (pre ++ (.ok (d, .error .UnsupportedOp)) :: post) =
      enumerateCollect (pre ++ (.ok (d, .ok ())) :: post)) := by
  refine ⟨fun α v => rfl, fun α => rfl, ?_, ?_⟩
  · intro α e he
    cases e with
    | UnsupportedOp => exact absurd rfl he
    | EdidParseError t => rfl
    | CapabilitiesReadError e => rfl
    | CapabilitiesParseError t => rfl
    | LowLevelError e => rfl
  · intro pre post d
    simp [enumerateCollect, edidStep]

/-- Witness for C6 at a concrete error and a concrete one-display list. -/
theorem unsupported_ok_spec_witness :
    Error.unsupported_ok (α := Nat)
        (.error (.LowLevelError ⟨Backend.WinApi, 7⟩)) =
        .error (.LowLevelError ⟨Backend.WinApi, 7⟩) ∧
      enumerateCollect [.ok (⟨Backend.WinApi, chars "mon:1"⟩, .error .UnsupportedOp)] =
        enumerateCollect [.ok (⟨Backend.WinApi, chars "mon:1"⟩, .ok ())] :=
  ⟨unsupported_ok_spec.2.2.1 Nat _ (by decide),
    unsupported_ok_spec.2.2.2 [] [] ⟨Backend.WinApi, chars "mon:1"⟩⟩

/-! ## Capabilities and the external-parser environment -/

/-- `mccs::Capabilities` (external crate), restricted to the fields this code
reads: model name, negotiated version, embedded EDID bytes, and the feature
table consumed by `apply_capabilities`. -/
structure Caps where
  model : Option Str
  mccs_version : Option Version
  edid : Option (List Nat)
  vcp_features : List (Nat × List Nat)
deriving DecidableEq

/-- An EDID descriptor, as matched by `from_edid`. -/
inductive EdidDesc where
  | SerialNumber (s : Str)
  | ProductName (s : Str)
  | Other
deriving DecidableEq

/-- A parsed EDID block (external crate `edid`), restricted to the fields
`DisplayInfo::from_edid` reads. -/
structure ParsedEdid where
  vendor : Str
  product : Nat
  serial : Nat
  version : Nat
  revision : Nat
  year : Nat
  week : Nat
  descriptors : List EdidDesc
deriving DecidableEq

/-- The external pure collaborators: the EDID byte parser, and the `mccs-db`
database constructors. They are parameters of the model and universally
quantified in the theorems. -/
structure MergeEnv where
  parseEdid : List Nat → Except Nat ParsedEdid
  fromVersion : Version → Db
  applyCaps : Db → Caps → Db

/-- `DisplayInfo::from_edid`: parse the EDID bytes and build a record whose
header-derived fields are all present; the model name and serial-number string
come from the last matching descriptor, as in the source's `for` loop. -/
def fromEdid (env : MergeEnv) (backend : Backend) (id : Str) (edid_data : List Nat) :
    Except Nat DisplayInfo :=
  match env.parseEdid edid_data with
  | .error e => .error e
  | .ok edid =>
    let pair := edid.descriptors.foldl (fun (p : Option Str × Option Str) d =>
      match d with
      | .SerialNumber s => (p.1, some s)
      | .ProductName s => (some s, p.2)
      | .Other => p) (none, none)
    let info : DisplayInfo :=
      { backend := backend, id := id, edid_data := some edid_data,
        manufacturer_id := some edid.vendor, model_id := some edid.product,
        serial := some edid.serial, version := some (edid.version, edid.revision),
        manufacture_year := some edid.year, manufacture_week := some edid.week,
        model_name := pair.1, serial_number := pair.2,
        mccs_version := none, mccs_database := [] }
    .ok info

/-- `DisplayInfo::from_capabilities`: build the base record from capability
fields, derive the feature database from the negotiated version with
capability-table overrides, then fold in any EDID embedded in the capability
data via `update_from` (parse failures are logged and ignored). -/
def fromCapabilities (env : MergeEnv) (backend : Backend) (id : Str) (caps : Caps) :
    DisplayInfo :=
  let edid := caps.edid.map (fun bytes => fromEdid env backend id bytes)
  let res : DisplayInfo :=
    { backend := backend, id := id, model_name := caps.model,
      mccs_version := caps.mccs_version, edid_data := caps.edid,
      serial_number := none, manufacturer_id := none, model_id := none,
      serial := none, version := none, manufacture_year := none,
      manufacture_week := none, mccs_database := [] }
  let res :=
    match res.mccs_version with
    | some ver => { res with mccs_database := env.applyCaps (env.fromVersion ver) caps }
    | none => res
  match edid with
  | some (.ok e) => res.update_from e
  | _ => res

/-! ## Claim C7: capability fields take precedence over embedded EDID -/

/-- C7: in `from_capabilities`, a caps-supplied model name is never overwritten
by the product name parsed out of the embedded EDID, while EDID-only fields
such as the manufacturer id are filled in from the parsed EDID. -/
theorem from_capabilities_precedence (env : MergeEnv) (backend : Backend) (id : Str)
    (caps : Caps) (m : Str) (bytes : List Nat) (ed : ParsedEdid)
    (hm : caps.model = some m) (hb : caps.edid = some bytes)
    (hp : env.parseEdid bytes = .ok ed) :
    (fromCapabilities env backend id caps).model_name = some m ∧
      (fromCapabilities env backend id caps).manufacturer_id = some ed.vendor := by
  unfold fromCapabilities fromEdid
  simp only [hb, hp, Option.map_some']
  rcases hv : caps.mccs_version with _ | ver <;>
    simp only [hv] <;>
      rw [update_from_eq] <;>
        split <;>
          simp [fillO, hm]

/-- Witness for C7: a concrete capability record giving model name `U2720Q`
together with embedded EDID bytes whose parse yields manufacturer `DEL` and a
different product name; the merged record keeps `U2720Q` and gains `DEL`. -/
theorem from_capabilities_precedence_witness :
    ((fromCapabilities
        ⟨fun _ => .ok ⟨chars "DEL", 1, 2, 1, 4, 30, 2,
            [EdidDesc.ProductName (chars "OTHER")]⟩,
          fun _ => [(0xdf, 0)], fun db _ => db⟩
        Backend.I2cDevice (chars "57344")
        ⟨some (chars "U2720Q"), some ⟨2, 1⟩, some [0, 1], []⟩).model_name =
      some (chars "U2720Q")) ∧
    ((fromCapabilities
        ⟨fun _ => .ok ⟨chars "DEL", 1, 2, 1, 4, 30, 2,
            [EdidDesc.ProductName (chars "OTHER")]⟩,
          fun _ => [(0xdf, 0)], fun db _ => db⟩
        Backend.I2cDevice (chars "57344")
        ⟨some (chars "U2720Q"), some ⟨2, 1⟩, some [0, 1], []⟩).manufacturer_id =
      some (chars "DEL")) :=
  from_capabilities_precedence _ _ _ _ _ _ _ rfl rfl rfl

/-! ## The Display aggregate of src/lib.rs and `update_capabilities` -/

/-- The `Display` aggregate of src/lib.rs: cached `info` plus the
`filled_caps` flag (the communication handle is not itself part of any claim;
the result of the fetch it would perform is an input of the step below). -/
structure CapDisplay where
  info : DisplayInfo
  filled_caps : Bool
deriving DecidableEq

/-- `Display::new` (src/lib.rs): the flag starts out `false`. -/
def CapDisplay.new (info : DisplayInfo) : CapDisplay :=
  { info := info, filled_caps := false }

/-- `Display::update_capabilities` (src/lib.rs lines 531–543).  `capsRes` is
the outcome `self.handle.capabilities()` would produce.  The second component
reports whether a capability fetch was performed, for stating the claims; the
first component is the Rust result.  Note the source never writes
`filled_caps`. -/
def CapDisplay.update_capabilities (env : MergeEnv) (d : CapDisplay)
    (capsRes : Except Error Caps) : Except Error CapDisplay × Bool :=
  if !d.filled_caps then
    match capsRes with
    | .error e => (.error e, true)
    | .ok caps =>
      let info := fromCapabilities env d.info.backend d.info.id caps
      let selfInfo :=
        if info.mccs_version.isSome then { d.info with mccs_database := [] } else d.info
      (.ok { d with info := selfInfo.update_from info }, true)
  else (.ok d, false)

/-- A trivial concrete environment for evaluating the capability step. -/
def c5Env : MergeEnv :=
  { parseEdid := fun _ => .error 0, fromVersion := fun _ => [],
    applyCaps := fun db _ => db }

/-- A concrete parsed capability string carrying only a version. -/
def c5Caps : Caps :=
  { model := none, mccs_version := some ⟨2, 1⟩, edid := none, vcp_features := [] }

/-- A freshly created display. -/
def c5Display : CapDisplay := CapDisplay.new (DisplayInfo.new Backend.I2cDevice (chars "57344"))

/-! ## Claim C5: `update_capabilities` re-fetches on every call -/

/-- C5 (code bug): because `filled_caps` is never set to `true`, a second call
to `update_capabilities` after a successful first call performs the capability
fetch again, contradicting the claimed at-most-one-fetch idempotence.  The
first conjunct shows the first call fetches; the second shows the display it
returns still has `filled_caps = false` and fetches again on the next call. -/
theorem update_capabilities_refetches :
    ((c5Display.update_capabilities c5Env (.ok c5Caps)).2 = true) ∧
    ((match (c5Display.update_capabilities c5Env (.ok c5Caps)).1 with
      | .ok d1 => d1.filled_caps = false ∧
          (d1.update_capabilities c5Env (.ok c5Caps)).2 = true
      | .error _ => False) : Prop) := by
  constructor
  · rfl
  · constructor <;> rfl

/-! ## The identifier registry (src/enumerate.rs, `IdRegistry` / `InsertId`) -/

/-- `IdRegistry`: the set of identifiers already assigned in the current
enumeration pass (`BTreeSet<String>`), modelled by its membership list. -/
structure IdRegistry where
  ids : List Str
deriving DecidableEq

/-- `IdRegistry::insert`: sanitize the candidate, then attempt insertion into
the pass-local uniqueness set; the sanitized id on success, `none` if the id
is already present. -/
def IdRegistry.insert (r : IdRegistry) (id : Str) : Option Str × IdRegistry :=
  let id := sanitize_id id
  if id ∈ r.ids then (none, r) else (some id, ⟨id :: r.ids⟩)

/-- `IdRegistry::try_insert_with`: return an already-chosen id unchanged;
otherwise sanitize and insert the candidate, if one is produced. -/
def IdRegistry.try_insert_with (r : IdRegistry) (prev : Option Str) (cand : Option Str) :
    Option Str × IdRegistry :=
  match prev with
  | some p => (some p, r)
  | none =>
    match cand with
    | some id => r.insert id
    | none => (none, r)

/-- `IdRegistry::finalize` = `try_insert_with(prev, || Some(id())).unwrap()`;
`none` models the panic of the internal `unwrap`. -/
def IdRegistry.finalize (r : IdRegistry) (prev : Option Str) (id : Str) :
    Option (Str × IdRegistry) :=
  match r.try_insert_with prev (some id) with
  | (some v, r') => some (v, r')
  | (none, _) => none

/-! Identifier families produced by the backends' `format!` calls. -/

/-- `format!("index:{i}")` — the terminal pass-local fallback. -/
def strIndex (i : Nat) : Str := chars "index:" ++ natRepr i

/-- `format!("index:{i}.{subi}")` — the NVAPI pass-local fallback. -/
def strIndexDot (i subi : Nat) : Str := chars "index:" ++ natRepr i ++ '.' :: natRepr subi

/-- `format!("mon:{}", mon.id())`. -/
def strMon (s : Str) : Str := chars "mon:" ++ s

/-- `format!("si:iid:{iid}")`. -/
def strIid (s : Str) : Str := chars "si:iid:" ++ s

/-- `format!("si:hw:{ids}")`. -/
def strHw (s : Str) : Str := chars "si:hw:" ++ s

/-- `format!("hmon:{}\\Monitor{ii}", info.device_name())`. -/
def strHmon (name : Str) (ii : Nat) : Str :=
  chars "hmon:" ++ name ++ chars "\\Monitor" ++ natRepr ii

/-- `format!("desc:{}", desc)`. -/
def strDesc (s : Str) : Str := chars "desc:" ++ s

/-- `format!("hmoni:{i}/{ii}")` — the positional physical-monitor id. -/
def strHmoni (oi ii : Nat) : Str := chars "hmoni:" ++ natRepr oi ++ '/' :: natRepr ii

/-- `format!("displayid:{}/{}", id_prefix, id.display_id)` (NVAPI). -/
def strDisplayid (pre : Str) (did : Nat) : Str :=
  chars "displayid:" ++ pre ++ '/' :: natRepr did

/-- `InsertId::indexed` = `finalize(ids, || format!("index:{i}"))`. -/
def IdRegistry.indexed (r : IdRegistry) (prev : Option Str) (i : Nat) :
    Option (Str × IdRegistry) :=
  r.finalize prev (strIndex i)

/-! ## `Display::enumerate_i2c` (id assignment) -/

/-- `Display::enumerate_i2c`: each element of the input list is the outcome of
`ddc.open()` for one udev-enumerated device (error tag on failure) together
with the device's `rdev` number when its metadata query succeeds.  The id is
the inserted decimal `rdev` string or the `index:<i>` fallback; `none` models
a panic of `indexed`'s unwrap. -/
def i2cRun (r : IdRegistry) (i : Nat) :
    List (Except Nat (Option Nat)) → Option (List (Except Nat Str) × IdRegistry)
  | [] => some ([], r)
  | .error t :: rest => (i2cRun r (i + 1) rest).map (fun p => (.error t :: p.1, p.2))
  | .ok rdev :: rest =>
    let step : Option Str × IdRegistry :=
      match rdev with
      | some d => r.insert (natRepr d)
      | none => (none, r)
    match step.2.indexed step.1 i with
    | none => none
    | some (id, r2) => (i2cRun r2 (i + 1) rest).map (fun p => (.ok id :: p.1, p.2))

/-! ## `Display::enumerate_macos` (id assignment) -/

/-- `Display::enumerate_macos`: insert each monitor's description string,
falling back to `index:<i>`; `none` models a panic of `indexed`'s unwrap. -/
def macosRun (r : IdRegistry) (i : Nat) : List Str → Option (List Str × IdRegistry)
  | [] => some ([], r)
  | descr :: rest =>
    let step := r.insert descr
    match step.2.indexed step.1 i with
    | none => none
    | some (id, r2) => (macosRun r2 (i + 1) rest).map (fun p => (id :: p.1, p.2))

/-! ## `Display::enumerate_nvapi` (id assignment) -/

/-- One NVAPI GPU: its optional short name and the result of
`display_ids_connected`. -/
structure GpuIn where
  shortName : Option Str
  ids : Except Nat (List Nat)

/-- The inner loop of `enumerate_nvapi` over one GPU's connected display ids:
insert `displayid:<prefix>/<id>`, falling back to `index:<i>.<subi>`. -/
def nvGpuRun (r : IdRegistry) (pre : Str) (i : Nat) (subi : Nat) :
    List Nat → Option (List (Except Nat Str) × IdRegistry)
  | [] => some ([], r)
  | did :: rest =>
    let step := r.insert (strDisplayid pre did)
    match step.2.finalize step.1 (strIndexDot i subi) with
    | none => none
    | some (id, r2) =>
      (nvGpuRun r2 pre i (subi + 1) rest).map (fun p => (.ok id :: p.1, p.2))

/-- `Display::enumerate_nvapi`: per GPU, a failed `display_ids_connected`
yields one error element; otherwise one display per connected id. -/
def nvRun (r : IdRegistry) (i : Nat) : List GpuIn → Option (List (Except Nat Str) × IdRegistry)
  | [] => some ([], r)
  | gpu :: rest =>
    let pre := gpu.shortName.getD (chars "NVAPI")
    match gpu.ids with
    | .error e => (nvRun r (i + 1) rest).map (fun p => (.error e :: p.1, p.2))
    | .ok dids =>
      match nvGpuRun r pre i 0 dids with
      | none => none
      | some (out1, r1) => (nvRun r1 (i + 1) rest).map (fun p => (out1 ++ p.1, p.2))

/-! ## The Windows source correlator (src/enumerate.rs, `enumerate_winapi`)

Display device nodes are identified throughout by an abstract device key
(`Nat`); the code's `DisplayDevice` equality is modelled as key equality. -/

/-- A monitor device node (`ddc_winapi::MonitorDevice`): the key of the
display device it belongs to (`mon.display()`), and its native id string
(`mon.id()`). -/
structure MonDev where
  display : Nat
  id : Str
deriving DecidableEq

/-- A physical monitor handle, carrying its `description()`. -/
structure Phy where
  descr : Str
deriving DecidableEq

/-- One parsed `DeviceInfo` entry of the device-info set: the outcome of the
`DEVICE_IS_PRESENT` filter, its `matches_device` predicates against display
devices and monitor devices (query errors absorbed as a non-match, as
`warn_result` does), and its optional instance-id / hardware-ids property
strings (property errors absorbed as absence). -/
structure SiEntry where
  present : Bool
  matchesDev : Nat → Bool
  matchesMon : MonDev → Bool
  iid : Option Str
  hw : Option Str

/-- A device-info-set item: a parsed entry or a per-item enumeration error. -/
abbrev SiItem := Except Nat SiEntry

/-- A display output (`ddc_winapi::Output`): which display devices its info
matches (`device_matches_display`, with an info-query failure absorbed as
matching nothing), the device name reported by `hmon.info()` when that later
call succeeds, and the result of `enumerate_monitors`. -/
structure Output where
  matchesDev : Nat → Bool
  devName : Option Str
  phys : Except Nat (List Phy)

/-- The display-device forest: each display device's key paired with the
monitor devices its `enumerate_monitors` yields. -/
abbrev DisplayDevs := List (Nat × List MonDev)

/-- The flattened `monitor_devices` pool. -/
def monitorDevices (dds : DisplayDevs) : List MonDev := dds.flatMap (fun d => d.2)

/-- `find_remove`: remove and return the first element satisfying the
predicate. -/
def findRemove {α : Type _} (p : α → Bool) : List α → Option α × List α
  | [] => (none, [])
  | x :: xs =>
    if p x then (some x, xs)
    else
      let r := findRemove p xs
      (r.1, x :: r.2)

/-- The match result attached to a device-info entry: a matched monitor
device, or a fallback display-device key, or nothing. -/
abbrev MonRef := Option (MonDev ⊕ Nat)

/-- A device-info entry after the pre-pass, paired with its match result. -/
structure SiRec where
  entry : SiEntry
  mon : MonRef

/-- A device-info item after the pre-pass. -/
abbrev SiItem2 := Except Nat SiRec

/-- The `DEVICE_IS_PRESENT` filter: error items pass through, parsed entries
are kept unless the property read `Some(false)`. -/
def siFilter (sis : List SiItem) : List SiItem :=
  sis.filter (fun it =>
    match it with
    | .error _ => true
    | .ok e => e.present)

/-- The device-info pre-pass: for each parsed entry, compute the display
devices it matches, then `find_remove` the first monitor device that the
entry matches and whose display device is among them; fall back to the first
matched display device. The monitor-device pool is threaded through. -/
def siPrePass (dds : DisplayDevs) : List SiItem → List MonDev → List SiItem2 × List MonDev
  | [], pool => ([], pool)
  | .error t :: rest, pool =>
    let r := siPrePass dds rest pool
    (.error t :: r.1, r.2)
  | .ok e :: rest, pool =>
    let matchedDevs := dds.filter (fun d => e.matchesDev d.1)
    let fr := findRemove
      (fun m => e.matchesMon m && matchedDevs.any (fun d => d.1 == m.display)) pool
    let item : SiRec :=
      match fr.1 with
      | some m => ⟨e, some (.inl m)⟩
      | none =>
        match matchedDevs.head? with
        | some d => ⟨e, some (.inr d.1)⟩
        | none => ⟨e, none⟩
    let r := siPrePass dds rest fr.2
    (.ok item :: r.1, r.2)

/-- One correlated record, as produced for each entry of the `devs` chain:
the physical-monitor component `(result, output index)` (present exactly for
output-derived records, with the inner index attached on success), the
output's reported device name, the monitor-device reference, and the
device-info component. -/
structure WRec where
  phy : Option (Except Nat (Phy × Nat) × Nat)
  devName : Option Str
  mon : MonRef
  si : Option (Except Nat SiEntry)

/-- `mon_matches_dispdev` as used by the per-physical-monitor `find_remove`:
the device of the entry's match (monitor's display device, or the fallback
device) equals the output's display device — including both being absent. -/
def siMatchesDd (dd : Option Nat) (it : SiItem2) : Bool :=
  match it with
  | .ok sr => (sr.mon.map (fun mr =>
      match mr with
      | .inl m => m.display
      | .inr d => d)) == dd
  | .error _ => false

/-- The per-output loop body over its physical monitors: pull a matching
device-info entry from the shared pool, or fall back to the output's display
device. -/
def physPass (dd : Option Nat) (dn : Option Str) (oi : Nat) :
    Nat → List Phy → List SiItem2 → List WRec × List SiItem2
  | _, [], pool => ([], pool)
  | ii, p :: ps, pool =>
    let fr := findRemove (siMatchesDd dd) pool
    let rec1 : WRec :=
      match fr.1 with
      | some (.ok sr) => ⟨some (.ok (p, ii), oi), dn, sr.mon, some (.ok sr.entry)⟩
      | some (.error e) => ⟨some (.ok (p, ii), oi), dn, dd.map .inr, some (.error e)⟩
      | none => ⟨some (.ok (p, ii), oi), dn, dd.map .inr, none⟩
    let r := physPass dd dn oi (ii + 1) ps fr.2
    (rec1 :: r.1, r.2)

/-- The outputs pass: find the output's display device, then emit one record
per enumeration error or per physical monitor. -/
def outputsPass (dds : DisplayDevs) : Nat → List Output → List SiItem2 → List WRec × List SiItem2
  | _, [], pool => ([], pool)
  | i, out :: rest, pool =>
    let dd : Option Nat := (dds.find? (fun d => out.matchesDev d.1)).map (fun d => d.1)
    match out.phys with
    | .error e =>
      let rec1 : WRec := ⟨some (.error e, i), out.devName, dd.map .inr, none⟩
      let r := outputsPass dds (i + 1) rest pool
      (rec1 :: r.1, r.2)
    | .ok phys =>
      let r1 := physPass dd out.devName i 0 phys pool
      let r2 := outputsPass dds (i + 1) rest r1.2
      (r1.1 ++ r2.1, r2.2)

/-- Drain the device-info entries left unmatched after all outputs. -/
def drainSi : List SiItem2 → List WRec
  | [] => []
  | .ok sr :: rest => ⟨none, none, sr.mon, some (.ok sr.entry)⟩ :: drainSi rest
  | .error e :: rest => ⟨none, none, none, some (.error e)⟩ :: drainSi rest

/-- The full Windows correlation: presence filter, device-info pre-pass over
the monitor-device pool, outputs pass over the device-info pool, then drain.
Also returns the monitor devices left unmatched by the pre-pass (which the
source subsequently drops). -/
def winCorrelate (dds : DisplayDevs) (outs : List Output) (sis : List SiItem) :
    List WRec × List MonDev :=
  let pre := siPrePass dds (siFilter sis) (monitorDevices dds)
  let op := outputsPass dds 0 outs pre.1
  (op.1 ++ drainSi op.2, pre.2)

/-! ## The Windows id-derivation chain (src/enumerate.rs lines 190–229) -/

/-- The placeholder monitor description excluded from `desc:` ids. -/
def genericPnp : Str := chars "Generic PnP Monitor"

/-- The `desc:` candidate of a physical monitor. -/
def descCand (p : Phy) : Option Str :=
  if p.descr = genericPnp then none else some (strDesc p.descr)

/-- Step 1: the `mon:<id>` candidate from a matched monitor device. -/
def idStep1 (r : IdRegistry) (rec : WRec) : Option Str × IdRegistry :=
  match rec.mon with
  | some (.inl m) => r.insert (strMon m.id)
  | _ => (none, r)

/-- Step 2: the `si:iid:` / `si:hw:` candidates from a parsed device-info
entry; with no parsed entry the accumulated id is discarded (`None => None`
in the source). -/
def idStep2 (r : IdRegistry) (prev : Option Str) (rec : WRec) : Option Str × IdRegistry :=
  match rec.si with
  | some (.ok simon) =>
    let s1 := r.try_insert_with prev (simon.iid.map strIid)
    s1.2.try_insert_with s1.1 (simon.hw.map strHw)
  | _ => (none, r)

/-- Step 3: the `hmon:`, `desc:` and positional `hmoni:` candidates from a
live physical monitor, ending in `or_else` which supplies `hmoni:<i>/<ii>`
without a registry insertion; with no live monitor the accumulated id is
discarded. -/
def idStep3 (r : IdRegistry) (prev : Option Str) (rec : WRec) : Option Str × IdRegistry :=
  match rec.phy with
  | some (.ok (p, ii), oi) =>
    let s1 := r.try_insert_with prev (rec.devName.map (fun n => strHmon n ii))
    let s2 := s1.2.try_insert_with s1.1 (descCand p)
    let s3 := s2.2.try_insert_with s2.1 (some (strHmoni oi ii))
    (match s3.1 with
      | some v => some v
      | none => some (strHmoni oi ii), s3.2)
  | _ => (none, r)

/-- The whole per-record id derivation, ending in the `index:<i>` fallback;
`none` models the panic of `indexed`'s unwrap. -/
def idChain (r : IdRegistry) (i : Nat) (rec : WRec) : Option (Str × IdRegistry) :=
  let s1 := idStep1 r rec
  let s2 := idStep2 s1.2 s1.1 rec
  let s3 := idStep3 s2.2 s2.1 rec
  s3.2.indexed s3.1 i

/-- A Windows display as returned by `enumerate_winapi`: its id and the
optional live handle / device-info halves. -/
structure WDisplay where
  id : Str
  monitor : Option Phy
  monitorInfo : Option SiEntry

/-- The final validation of one record (src lines 231–241): an error on one
half with nothing on the other is returned as that error; both halves absent
is the `todo!()` panic (`none`); otherwise remaining errors are logged away
and a display is built. -/
def recFinish (id : Str) (rec : WRec) : Option (Except Nat WDisplay) :=
  let monitor : Except Nat (Option Phy) :=
    match rec.phy with
    | some (.ok (p, _), _) => .ok (some p)
    | some (.error e, _) => .error e
    | none => .ok none
  let minfo : Except Nat (Option SiEntry) :=
    match rec.si with
    | some (.ok e) => .ok (some e)
    | some (.error e) => .error e
    | none => .ok none
  match monitor, minfo with
  | .error e, .error _ => some (.error e)
  | .error e, .ok none => some (.error e)
  | .ok none, .error e => some (.error e)
  | .ok none, .ok none => none
  | m, info => some (.ok { id := id, monitor := m.toOption.join, monitorInfo := info.toOption.join })

/-- The id-assignment and validation pass over the correlated records. -/
def idPhase (r : IdRegistry) (i : Nat) : List WRec → Option (List (Except Nat WDisplay))
  | [] => some []
  | rec :: rest =>
    match idChain r i rec with
    | none => none
    | some (id, r2) =>
      match recFinish id rec with
      | none => none
      | some o => (idPhase r2 (i + 1) rest).map (fun l => o :: l)

/-- `Display::enumerate_winapi`, composed. -/
def enumerateWinapi (dds : DisplayDevs) (outs : List Output) (sis : List SiItem) :
    Option (List (Except Nat WDisplay)) :=
  idPhase ⟨[]⟩ 0 (winCorrelate dds outs sis).1

/-! ## `Display::enumerate_all` / `Display::enumerate` (src/enumerate.rs) -/

/-- The compiled-in backend set. `build.rs` emits `has-ddc-macos` only on
macOS (where `has-ddc-i2c` is suppressed), `has-ddc-i2c` only on other Unix
targets, and `has-ddc-winapi`/`has-nvapi` only on Windows. -/
structure Cfg where
  i2c : Bool
  winapi : Bool
  macos : Bool
  nvapi : Bool

/-- The backend combinations realizable under `build.rs`. -/
def Cfg.valid (c : Cfg) : Prop :=
  (c.i2c = true → c.macos = false ∧ c.winapi = false ∧ c.nvapi = false) ∧
  (c.macos = true → c.winapi = false ∧ c.nvapi = false)

instance (c : Cfg) : Decidable c.valid := by
  unfold Cfg.valid; infer_instance

/-- The per-backend enumeration sources: each backend's top-level enumeration
may fail outright (error tag) or produce its input list. -/
structure AllInputs where
  i2cSrc : Except Nat (List (Except Nat (Option Nat)))
  winSrc : Except Nat (DisplayDevs × List Output × List SiItem)
  macSrc : Except Nat (List Str)
  nvSrc : Except Nat (List GpuIn)

/-- Tag a backend's per-item results with its backend. -/
def tagItems (b : Backend) (l : List (Except Nat Str)) :
    List (Except (Backend × Nat) EnumDisplay) :=
  l.map (fun it =>
    match it with
    | .ok id => .ok ⟨b, id⟩
    | .error t => .error (b, t))

/-- Project the Windows displays onto their backend/id view. -/
def winItems (l : List (Except Nat WDisplay)) : List (Except (Backend × Nat) EnumDisplay) :=
  l.map (fun it =>
    match it with
    | .ok d => .ok ⟨Backend.WinApi, d.id⟩
    | .error t => .error (Backend.WinApi, t))

/-- `enumerate_backend` applied to the i2c source. -/
def i2cPart (c : Cfg) (inp : AllInputs) : Option (List (Except (Backend × Nat) EnumDisplay)) :=
  if c.i2c then
    match inp.i2cSrc with
    | .error t => some [.error (Backend.I2cDevice, t)]
    | .ok devs => (i2cRun ⟨[]⟩ 0 devs).map (fun p => tagItems Backend.I2cDevice p.1)
  else some []

/-- `enumerate_backend` applied to the Windows source. -/
def winPart (c : Cfg) (inp : AllInputs) : Option (List (Except (Backend × Nat) EnumDisplay)) :=
  if c.winapi then
    match inp.winSrc with
    | .error t => some [.error (Backend.WinApi, t)]
    | .ok src => (enumerateWinapi src.1 src.2.1 src.2.2).map winItems
  else some []

/-- `enumerate_backend` applied to the macOS source. -/
def macPart (c : Cfg) (inp : AllInputs) : Option (List (Except (Backend × Nat) EnumDisplay)) :=
  if c.macos then
    match inp.macSrc with
    | .error t => some [.error (Backend.MacOS, t)]
    | .ok descrs =>
      (macosRun ⟨[]⟩ 0 descrs).map (fun p => p.1.map (fun id => .ok ⟨Backend.MacOS, id⟩))
  else some []

/-- `enumerate_backend` applied to the NVAPI source. -/
def nvPart (c : Cfg) (inp : AllInputs) : Option (List (Except (Backend × Nat) EnumDisplay)) :=
  if c.nvapi then
    match inp.nvSrc with
    | .error t => some [.error (Backend.Nvapi, t)]
    | .ok gpus => (nvRun ⟨[]⟩ 0 gpus).map (fun p => tagItems Backend.Nvapi p.1)
  else some []

/-- `Display::enumerate_all`: the compiled-in backends chained in source
order (i2c, winapi, macos, nvapi), each with its own fresh id registry;
`none` propagates a panic in any backend pass. -/
def enumerateAll (c : Cfg) (inp : AllInputs) :
    Option (List (Except (Backend × Nat) EnumDisplay)) := do
  let p1 ← i2cPart c inp
  let p2 ← winPart c inp
  let p3 ← macPart c inp
  let p4 ← nvPart c inp
  some (p1 ++ p2 ++ p3 ++ p4)

/-- `Display::enumerate`: run `enumerate_all`, apply the per-display EDID
pre-fetch match (`edidRes` supplies each display's `update_edid` outcome) and
drop per-backend errors. -/
def enumerate (c : Cfg) (inp : AllInputs) (edidRes : EnumDisplay → Except Error Unit) :
    Option (List EnumDisplay) :=
  (enumerateAll c inp).map (fun l =>
    enumerateCollect (l.map (fun it =>
      match it with
      | .ok d => .ok (d, edidRes d)
      | .error e => .error ⟨e.1, e.2⟩)))

/-! ## Registry lemmas -/

theorem insert_spec (r : IdRegistry) (id : Str) :
    (∀ x, (r.insert id).1 = some x →
      x = sanitize_id id ∧ x ∉ r.ids ∧ (r.insert id).2.ids = x :: r.ids) ∧
    ((r.insert id).1 = none → (r.insert id).2 = r) ∧
    r.ids ⊆ (r.insert id).2.ids := by
  unfold IdRegistry.insert
  by_cases h : sanitize_id id ∈ r.ids
  · simp [h]
  · refine ⟨?_, ?_, ?_⟩
    · intro x hx
      simp only [h, if_neg, if_false] at hx ⊢
      simp only [Option.some_inj] at hx
      subst hx
      simp [h]
    · simp [h]
    · intro x hx
      simp [h, List.mem_cons, hx]

/-- The carried-or-freshly-inserted property of a (candidate, registry) pair,
relative to a base registry: the registry only grows, and a chosen id is
absent from the base but present in the registry. -/
def StepOk (base : IdRegistry) (s : Option Str × IdRegistry) : Prop :=
  base.ids ⊆ s.2.ids ∧ ∀ x, s.1 = some x → x ∉ base.ids ∧ x ∈ s.2.ids

theorem StepOk_none {base r : IdRegistry} (h : base.ids ⊆ r.ids) :
    StepOk base ((none : Option Str), r) :=
  ⟨h, fun x hx => by simp at hx⟩

theorem insert_StepOk {base r : IdRegistry} (h : base.ids ⊆ r.ids) (id : Str) :
    StepOk base (r.insert id) := by
  obtain ⟨h1, _, h3⟩ := insert_spec r id
  refine ⟨fun x hx => h3 (h hx), fun x hx => ?_⟩
  obtain ⟨_, hnotin, hids⟩ := h1 x hx
  exact ⟨fun hb => hnotin (h hb), by rw [hids]; exact List.mem_cons_self x _⟩

theorem try_insert_with_StepOk {base : IdRegistry} {s : Option Str × IdRegistry}
    (h : StepOk base s) (cand : Option Str) :
    StepOk base (s.2.try_insert_with s.1 cand) := by
  unfold IdRegistry.try_insert_with
  rcases hs : s.1 with _ | p
  · rcases cand with _ | c
    · exact StepOk_none h.1
    · exact insert_StepOk h.1 c
  · exact ⟨h.1, fun x hx => by
      simp only [Option.some_inj] at hx
      subst hx
      exact h.2 p hs⟩

/-- What `try_insert_with` adds to the registry: nothing, or the sanitized
candidate. -/
theorem try_insert_with_adds {r : IdRegistry} {prev cand : Option Str} :
    ∀ x ∈ (r.try_insert_with prev cand).2.ids,
      x ∈ r.ids ∨ ∃ c, cand = some c ∧ x = sanitize_id c := by
  unfold IdRegistry.try_insert_with
  rcases prev with _ | p
  · rcases cand with _ | c
    · intro x hx; exact Or.inl hx
    · intro x hx
      unfold IdRegistry.insert at hx
      by_cases h : sanitize_id c ∈ r.ids
      · simp only [h, if_true] at hx
        exact Or.inl hx
      · simp only [h, if_false] at hx
        rcases List.mem_cons.mp hx with h1 | h1
        · exact Or.inr ⟨c, rfl, h1⟩
        · exact Or.inl h1
  · intro x hx; exact Or.inl hx

/-- What `try_insert_with` chooses: the carried id, or the sanitized
candidate (freshly inserted). -/
theorem try_insert_with_chooses {r : IdRegistry} {prev cand : Option Str} {x : Str}
    (h : (r.try_insert_with prev cand).1 = some x) :
    prev = some x ∨
      (prev = none ∧ ∃ c, cand = some c ∧ x = sanitize_id c ∧ x ∉ r.ids ∧
        (r.try_insert_with prev cand).2.ids = x :: r.ids) := by
  unfold IdRegistry.try_insert_with at h ⊢
  rcases prev with _ | p
  · rcases cand with _ | c
    · simp at h
    · obtain ⟨h1, _, _⟩ := insert_spec r c
      obtain ⟨he, hn, hi⟩ := h1 x h
      exact Or.inr ⟨rfl, c, rfl, he, hn, hi⟩
  · simp only [Option.some_inj] at h
    exact Or.inl (h ▸ rfl)

theorem finalize_spec {r : IdRegistry} {prev : Option Str} {fb id : Str} {r2 : IdRegistry}
    (h : r.finalize prev fb = some (id, r2)) :
    (r.try_insert_with prev (some fb)).1 = some id ∧
      (r.try_insert_with prev (some fb)).2 = r2 := by
  unfold IdRegistry.finalize at h
  rcases hti : r.try_insert_with prev (some fb) with ⟨o, r'⟩
  rcases o with _ | v
  · rw [hti] at h; simp at h
  · rw [hti] at h
    simp only [Option.some_inj, Prod.mk.injEq] at h
    exact ⟨by simp [h.1], by simp [h.2]⟩

/-- C4 (amended direction): `finalize` returns an id whenever a candidate was
already chosen or the sanitized fallback is not yet registered. -/
theorem finalize_total (r : IdRegistry) (prev : Option Str) (fb : Str)
    (h : prev.isSome ∨ sanitize_id fb ∉ r.ids) :
    ∃ id r2, r.finalize prev fb = some (id, r2) := by
  unfold IdRegistry.finalize IdRegistry.try_insert_with
  rcases prev with _ | p
  · rcases h with h | h
    · simp at h
    · unfold IdRegistry.insert
      simp only [h, if_false]
      exact ⟨sanitize_id fb, ⟨sanitize_id fb :: r.ids⟩, rfl⟩
  · exact ⟨p, r, rfl⟩

/-- Witness for the amended C4 statement at a concrete registry. -/
theorem finalize_total_witness :
    ∃ id r2, IdRegistry.finalize ⟨[chars "desc:A"]⟩ none (chars "index:0") = some (id, r2) :=
  finalize_total ⟨[chars "desc:A"]⟩ none (chars "index:0") (Or.inr (by decide))

/-! ## `find_remove` lemmas -/

theorem findRemove_none {α : Type _} {p : α → Bool} :
    ∀ {l : List α}, (findRemove p l).1 = none → (findRemove p l).2 = l := by
  intro l
  induction l with
  | nil => intro _; rfl
  | cons x xs ih =>
    intro h
    unfold findRemove at h ⊢
    by_cases hp : p x
    · simp [hp] at h
    · simp only [hp, Bool.false_eq_true, if_false] at h ⊢
      rw [ih h]

theorem findRemove_some {α : Type _} {p : α → Bool} :
    ∀ {l : List α} {x : α}, (findRemove p l).1 = some x →
      p x = true ∧ l.Perm (x :: (findRemove p l).2) := by
  intro l
  induction l with
  | nil => intro x h; simp [findRemove] at h
  | cons y ys ih =>
    intro x h
    unfold findRemove at h ⊢
    by_cases hp : p y
    · simp only [hp, if_true] at h ⊢
      simp only [Option.some_inj] at h
      subst h
      exact ⟨hp, List.Perm.refl _⟩
    · simp only [hp, Bool.false_eq_true, if_false] at h ⊢
      obtain ⟨h1, h2⟩ := ih h
      exact ⟨h1, (h2.cons y).trans (List.Perm.swap x y _)⟩

/-! ## Identifier-family separation -/

/-- Two character lists that disagree at some common position; appending
anything to each keeps them different. -/
def prefIncompat (p q : Str) : Bool := (p.zip q).any (fun pr => !(pr.1 == pr.2))

theorem ne_append_of_prefIncompat :
    ∀ (p q a b : Str), prefIncompat p q = true → p ++ a ≠ q ++ b := by
  intro p
  induction p with
  | nil => intro q a b h; simp [prefIncompat] at h
  | cons c p ih =>
    intro q a b h
    rcases q with _ | ⟨d, q⟩
    · simp [prefIncompat] at h
    · simp only [prefIncompat, List.zip_cons_cons, List.any_cons, Bool.or_eq_true] at h
      rcases h with h | h
      · simp only [Bool.not_eq_eq_eq_not, Bool.not_true, beq_eq_false_iff_ne, ne_eq] at h
        intro he
        simp only [List.cons_append, List.cons.injEq] at he
        exact h he.1
      · intro he
        simp only [List.cons_append, List.cons.injEq] at he
        exact ih q a b h he.2

/-- The candidate families a Windows-pass id can belong to. -/
def WinFam (x : Str) : Prop :=
  (∃ t, x = chars "mon:" ++ t) ∨ (∃ t, x = chars "si:iid:" ++ t) ∨
  (∃ t, x = chars "si:hw:" ++ t) ∨ (∃ t, x = chars "hmon:" ++ t) ∨
  (∃ t, x = chars "desc:" ++ t) ∨ (∃ t, x = chars "hmoni:" ++ t) ∨
  (∃ j, x = strIndex j)

/-- The candidate families an NVAPI-pass id can belong to. -/
def NvFam (x : Str) : Prop :=
  (∃ t, x = chars "displayid:" ++ t) ∨ (∃ a b, x = strIndexDot a b)

theorem dot_not_mem_natRepr (n : Nat) : '.' ∉ natRepr n := by
  intro h
  have := isDig_of_mem_natRepr h
  revert this
  decide

theorem slash_not_mem_natRepr (n : Nat) : '/' ∉ natRepr n := by
  intro h
  have := isDig_of_mem_natRepr h
  revert this
  decide

theorem strIndex_ne_strIndexDot (j a b : Nat) : strIndex j ≠ strIndexDot a b := by
  intro h
  unfold strIndex strIndexDot at h
  rw [List.append_assoc] at h
  have h2 : natRepr j = natRepr a ++ '.' :: natRepr b := List.append_cancel_left h
  have : '.' ∈ natRepr j := by
    rw [h2]
    exact List.mem_append_right _ (List.mem_cons_self _ _)
  exact dot_not_mem_natRepr j this

theorem strIndex_inj {i j : Nat} (h : strIndex i = strIndex j) : i = j := by
  unfold strIndex at h
  exact natRepr_inj (List.append_cancel_left h)

/-- Splitting at a separator absent from both leading parts is unambiguous. -/
theorem sep_split {sep : Char} :
    ∀ (xs xs' ys ys' : Str), sep ∉ xs → sep ∉ xs' →
      xs ++ sep :: ys = xs' ++ sep :: ys' → xs = xs' ∧ ys = ys' := by
  intro xs
  induction xs with
  | nil =>
    intro xs' ys ys' _ h2 h
    rcases xs' with _ | ⟨d, xs'⟩
    · simp only [List.nil_append, List.cons.injEq] at h
      exact ⟨rfl, h.2⟩
    · simp only [List.nil_append, List.cons_append, List.cons.injEq] at h
      exact absurd (h.1 ▸ List.mem_cons_self d xs') (fun hm => h2 hm)
  | cons c cs ih =>
    intro xs' ys ys' h1 h2 h
    rcases xs' with _ | ⟨d, xs'⟩
    · simp only [List.cons_append, List.nil_append, List.cons.injEq] at h
      exact absurd (h.1 ▸ List.mem_cons_self c cs) (fun hm => h1 hm)
    · simp only [List.cons_append, List.cons.injEq] at h
      obtain ⟨he, ht⟩ := h
      obtain ⟨hx, hy⟩ := ih xs' ys ys' (fun hm => h1 (List.mem_cons_of_mem c hm))
        (fun hm => h2 (List.mem_cons_of_mem d hm)) ht
      exact ⟨by rw [he, hx], hy⟩

theorem strHmoni_inj {a b a' b' : Nat} (h : strHmoni a b = strHmoni a' b') :
    a = a' ∧ b = b' := by
  unfold strHmoni at h
  rw [List.append_assoc, List.append_assoc] at h
  have h2 := List.append_cancel_left h
  obtain ⟨hx, hy⟩ := sep_split (natRepr a) (natRepr a') (natRepr b) (natRepr b')
    (slash_not_mem_natRepr a) (slash_not_mem_natRepr a') h2
  exact ⟨natRepr_inj hx, natRepr_inj hy⟩

theorem strIndexDot_inj {a b a' b' : Nat} (h : strIndexDot a b = strIndexDot a' b') :
    a = a' ∧ b = b' := by
  unfold strIndexDot at h
  rw [List.append_assoc, List.append_assoc] at h
  have h2 := List.append_cancel_left h
  obtain ⟨hx, hy⟩ := sep_split (natRepr a) (natRepr a') (natRepr b) (natRepr b')
    (dot_not_mem_natRepr a) (dot_not_mem_natRepr a') h2
  exact ⟨natRepr_inj hx, natRepr_inj hy⟩

/-- Normal form of an NVAPI-family id: a `displayid:`-led string, or an
`index:`-led string whose tail contains a dot. -/
theorem nvFam_cases {y : Str} (hy : NvFam y) :
    (∃ t, y = chars "displayid:" ++ t) ∨ (∃ t, y = chars "index:" ++ t ∧ '.' ∈ t) := by
  rcases hy with ⟨t, rfl⟩ | ⟨a, b, rfl⟩
  · exact Or.inl ⟨t, rfl⟩
  · refine Or.inr ⟨natRepr a ++ '.' :: natRepr b, ?_, ?_⟩
    · unfold strIndexDot
      rw [List.append_assoc]
    · exact List.mem_append_right _ (List.mem_cons_self _ _)

/-- Normal form of a Windows-family id: one of five letter-keyed prefixes, or
an `index:`-led string whose tail is all digits. -/
theorem winFam_cases {x : Str} (hx : WinFam x) :
    (∃ t, x = chars "mon:" ++ t) ∨ (∃ t, x = chars "si:iid:" ++ t) ∨
    (∃ t, x = chars "si:hw:" ++ t) ∨ (∃ t, x = chars "hmon:" ++ t) ∨
    (∃ t, x = chars "desc:" ++ t) ∨ (∃ t, x = chars "hmoni:" ++ t) ∨
    (∃ t, x = chars "index:" ++ t ∧ ∀ c ∈ t, isDig c = true) := by
  rcases hx with h | h | h | h | h | h | ⟨j, rfl⟩
  exacts [.inl h, .inr (.inl h), .inr (.inr (.inl h)), .inr (.inr (.inr (.inl h))),
    .inr (.inr (.inr (.inr (.inl h)))), .inr (.inr (.inr (.inr (.inr (.inl h))))),
    .inr (.inr (.inr (.inr (.inr (.inr
      ⟨natRepr j, rfl, fun c hc => isDig_of_mem_natRepr hc⟩)))))]

/-- The Windows and NVAPI id families are disjoint: the two passes can never
assign the same identifier string. -/
theorem winFam_nvFam_ne {x y : Str} (hx : WinFam x) (hy : NvFam y) : x ≠ y := by
  rcases nvFam_cases hy with ⟨t, rfl⟩ | ⟨t, rfl, hdot⟩ <;>
    rcases winFam_cases hx with
      ⟨s, rfl⟩ | ⟨s, rfl⟩ | ⟨s, rfl⟩ | ⟨s, rfl⟩ | ⟨s, rfl⟩ | ⟨s, rfl⟩ | ⟨s, rfl, hdig⟩
  · exact ne_append_of_prefIncompat _ _ _ _ (by decide)
  · exact ne_append_of_prefIncompat _ _ _ _ (by decide)
  · exact ne_append_of_prefIncompat _ _ _ _ (by decide)
  · exact ne_append_of_prefIncompat _ _ _ _ (by decide)
  · exact ne_append_of_prefIncompat _ _ _ _ (by decide)
  · exact ne_append_of_prefIncompat _ _ _ _ (by decide)
  · exact ne_append_of_prefIncompat _ _ _ _ (by decide)
  · exact ne_append_of_prefIncompat _ _ _ _ (by decide)
  · exact ne_append_of_prefIncompat _ _ _ _ (by decide)
  · exact ne_append_of_prefIncompat _ _ _ _ (by decide)
  · exact ne_append_of_prefIncompat _ _ _ _ (by decide)
  · exact ne_append_of_prefIncompat _ _ _ _ (by decide)
  · exact ne_append_of_prefIncompat _ _ _ _ (by decide)
  · intro h
    have ht : s = t := List.append_cancel_left h
    subst ht
    have := hdig '.' hdot
    revert this
    decide

/-! ## Sanitization fixed points of the generated id formats -/

theorem hasSpecial_false_of_forall {s : Str} (h : ∀ c ∈ s, specialChar c = false) :
    hasSpecial s = false := by
  simp only [hasSpecial, List.any_eq_false]
  intro c hc
  simp [h c hc]

theorem forall_of_hasSpecial_false {s : Str} (h : hasSpecial s = false) :
    ∀ c ∈ s, specialChar c = false := by
  simp only [hasSpecial, List.any_eq_false] at h
  intro c hc
  simpa using h c hc

theorem sanitize_strIndex (i : Nat) : sanitize_id (strIndex i) = strIndex i :=
  sanitize_id_of_clean (hasSpecial_append_eq_false (by decide) (hasSpecial_natRepr i))

theorem sanitize_strIndexDot (a b : Nat) : sanitize_id (strIndexDot a b) = strIndexDot a b := by
  apply sanitize_id_of_clean
  apply hasSpecial_false_of_forall
  intro c hc
  unfold strIndexDot at hc
  simp only [List.append_assoc, List.mem_append, List.mem_cons] at hc
  rcases hc with hc | hc | hc | hc
  · exact (by decide : ∀ c ∈ chars "index:", specialChar c = false) c hc
  · exact specialChar_eq_false_of_isDig (isDig_of_mem_natRepr hc)
  · subst hc; decide
  · exact specialChar_eq_false_of_isDig (isDig_of_mem_natRepr hc)

theorem sanitize_strHmoni (a b : Nat) : sanitize_id (strHmoni a b) = strHmoni a b := by
  apply sanitize_id_of_clean
  apply hasSpecial_false_of_forall
  intro c hc
  unfold strHmoni at hc
  simp only [List.append_assoc, List.mem_append, List.mem_cons] at hc
  rcases hc with hc | hc | hc | hc
  · exact (by decide : ∀ c ∈ chars "hmoni:", specialChar c = false) c hc
  · exact specialChar_eq_false_of_isDig (isDig_of_mem_natRepr hc)
  · subst hc; decide
  · exact specialChar_eq_false_of_isDig (isDig_of_mem_natRepr hc)

theorem sanitize_natRepr (n : Nat) : sanitize_id (natRepr n) = natRepr n :=
  sanitize_id_of_clean (hasSpecial_natRepr n)

/-! ## Per-backend id-assignment specifications -/

/-- The successfully enumerated id strings of a backend result list. -/
def okStrs (l : List (Except Nat Str)) : List Str :=
  l.filterMap (fun it =>
    match it with
    | .ok s => some s
    | .error _ => none)

/-- macOS pass: when it returns at all, every id was freshly registered, so
the returned ids are pairwise distinct. -/
theorem macosRun_spec :
    ∀ (descrs : List Str) (r : IdRegistry) (i : Nat) (out : List Str) (rF : IdRegistry),
      macosRun r i descrs = some (out, rF) →
      r.ids ⊆ rF.ids ∧ (∀ id ∈ out, id ∈ rF.ids ∧ id ∉ r.ids) ∧ out.Pairwise Ne := by
  intro descrs
  induction descrs with
  | nil =>
    intro r i out rF h
    simp only [macosRun, Option.some_inj, Prod.mk.injEq] at h
    obtain ⟨h1, h2⟩ := h
    subst h1; subst h2
    exact ⟨fun x hx => hx, by simp, by simp⟩
  | cons d rest ih =>
    intro r i out rF h
    simp only [macosRun] at h
    rcases hidx : ((r.insert d).2.indexed (r.insert d).1 i) with _ | ⟨id, r2⟩
    · rw [hidx] at h; simp at h
    · rw [hidx] at h
      dsimp only at h
      rcases hrec : macosRun r2 (i + 1) rest with _ | p
      · rw [hrec] at h; simp at h
      · rw [hrec] at h
        simp only [Option.map_some', Option.some_inj] at h
        obtain ⟨ho, hrF⟩ := Prod.mk.injEq .. ▸ h
        have hstep : StepOk r (r.insert d) := insert_StepOk (fun x hx => hx) d
        obtain ⟨hti1, hti2⟩ := finalize_spec hidx
        obtain ⟨hsub, hfresh⟩ := try_insert_with_StepOk hstep (some (strIndex i))
        rw [hti2] at hsub
        obtain ⟨hid_not, hid_in⟩ := hfresh id hti1
        rw [hti2] at hid_in
        obtain ⟨hsub2, hmem2, hpw2⟩ := ih r2 (i + 1) p.1 p.2 hrec
        subst ho
        refine ⟨fun x hx => ?_, ?_, ?_⟩
        · rw [← hrF]; exact hsub2 (hsub hx)
        · intro x hx
          rcases List.mem_cons.mp hx with rfl | hx
          · exact ⟨by rw [← hrF]; exact hsub2 hid_in, hid_not⟩
          · obtain ⟨h1, h2⟩ := hmem2 x hx
            exact ⟨by rw [← hrF]; exact h1, fun hb => h2 (hsub hb)⟩
        · refine List.pairwise_cons.mpr ⟨?_, hpw2⟩
          intro y hy he
          obtain ⟨_, h2⟩ := hmem2 y hy
          exact h2 (he ▸ hid_in)

/-- i2c pass: same freshness argument over the ok elements. -/
theorem i2cRun_spec :
    ∀ (devs : List (Except Nat (Option Nat))) (r : IdRegistry) (i : Nat)
      (out : List (Except Nat Str)) (rF : IdRegistry),
      i2cRun r i devs = some (out, rF) →
      r.ids ⊆ rF.ids ∧ (∀ id ∈ okStrs out, id ∈ rF.ids ∧ id ∉ r.ids) ∧
        (okStrs out).Pairwise Ne := by
  intro devs
  induction devs with
  | nil =>
    intro r i out rF h
    simp only [i2cRun, Option.some_inj, Prod.mk.injEq] at h
    obtain ⟨h1, h2⟩ := h
    subst h1; subst h2
    exact ⟨fun x hx => hx, by simp [okStrs], by simp [okStrs]⟩
  | cons d rest ih =>
    intro r i out rF h
    rcases d with t | rdev
    · simp only [i2cRun] at h
      rcases hrec : i2cRun r (i + 1) rest with _ | p
      · rw [hrec] at h; simp at h
      · rw [hrec] at h
        simp only [Option.map_some', Option.some_inj] at h
        obtain ⟨ho, hrF⟩ := Prod.mk.injEq .. ▸ h
        obtain ⟨hsub2, hmem2, hpw2⟩ := ih r (i + 1) p.1 p.2 hrec
        subst ho
        refine ⟨by rw [← hrF]; exact hsub2, ?_, ?_⟩
        · intro x hx
          simp only [okStrs, List.filterMap_cons] at hx
          obtain ⟨h1, h2⟩ := hmem2 x hx
          exact ⟨by rw [← hrF]; exact h1, h2⟩
        · simpa only [okStrs, List.filterMap_cons] using hpw2
    · simp only [i2cRun] at h
      rcases hstep0 : (match rdev with
          | some dd => r.insert (natRepr dd)
          | none => ((none : Option Str), r)) with ⟨prev, r1⟩
      rw [hstep0] at h
      rcases hidx : r1.indexed prev i with _ | ⟨id, r2⟩
      · rw [hidx] at h; simp at h
      · rw [hidx] at h
        dsimp only at h
        rcases hrec : i2cRun r2 (i + 1) rest with _ | p
        · rw [hrec] at h; simp at h
        · rw [hrec] at h
          simp only [Option.map_some', Option.some_inj] at h
          obtain ⟨ho, hrF⟩ := Prod.mk.injEq .. ▸ h
          have hstep : StepOk r (prev, r1) := by
            rcases rdev with _ | dd
            · simp only at hstep0
              obtain ⟨e1, e2⟩ := Prod.mk.injEq .. ▸ hstep0
              rw [← e1, ← e2]
              exact StepOk_none (fun x hx => hx)
            · simp only at hstep0
              rw [← hstep0]
              exact insert_StepOk (fun x hx => hx) (natRepr dd)
          obtain ⟨hti1, hti2⟩ := finalize_spec hidx
          obtain ⟨hsub, hfresh⟩ := try_insert_with_StepOk hstep (some (strIndex i))
          rw [hti2] at hsub
          obtain ⟨hid_not, hid_in⟩ := hfresh id hti1
          rw [hti2] at hid_in
          obtain ⟨hsub2, hmem2, hpw2⟩ := ih r2 (i + 1) p.1 p.2 hrec
          subst ho
          refine ⟨fun x hx => by rw [← hrF]; exact hsub2 (hsub hx), ?_, ?_⟩
          · intro x hx
            simp only [okStrs, List.filterMap_cons] at hx
            rcases List.mem_cons.mp hx with rfl | hx
            · exact ⟨by rw [← hrF]; exact hsub2 hid_in, hid_not⟩
            · obtain ⟨h1, h2⟩ := hmem2 x hx
              exact ⟨by rw [← hrF]; exact h1, fun hb => h2 (hsub hb)⟩
          · simp only [okStrs, List.filterMap_cons]
            refine List.pairwise_cons.mpr ⟨?_, hpw2⟩
            intro y hy he
            obtain ⟨_, h2⟩ := hmem2 y hy
            exact h2 (he ▸ hid_in)

theorem nvFam_sanitize_strDisplayid (pre : Str) (did : Nat) :
    NvFam (sanitize_id (strDisplayid pre did)) := by
  unfold strDisplayid
  rw [List.append_assoc]
  obtain ⟨t, ht⟩ := sanitize_id_append (p := chars "displayid:") (by decide)
    (pre ++ '/' :: natRepr did)
  exact Or.inl ⟨t, ht⟩

/-- NVAPI per-GPU loop: ids are fresh registrations of NVAPI-family strings. -/
theorem nvGpuRun_spec :
    ∀ (dids : List Nat) (r : IdRegistry) (pre : Str) (i subi : Nat)
      (out : List (Except Nat Str)) (rF : IdRegistry),
      nvGpuRun r pre i subi dids = some (out, rF) →
      r.ids ⊆ rF.ids ∧ (∀ id ∈ okStrs out, id ∈ rF.ids ∧ id ∉ r.ids ∧ NvFam id) ∧
        (okStrs out).Pairwise Ne := by
  intro dids
  induction dids with
  | nil =>
    intro r pre i subi out rF h
    simp only [nvGpuRun, Option.some_inj, Prod.mk.injEq] at h
    obtain ⟨h1, h2⟩ := h
    subst h1; subst h2
    exact ⟨fun x hx => hx, by simp [okStrs], by simp [okStrs]⟩
  | cons did rest ih =>
    intro r pre i subi out rF h
    simp only [nvGpuRun] at h
    rcases hidx : ((r.insert (strDisplayid pre did)).2.finalize
        (r.insert (strDisplayid pre did)).1 (strIndexDot i subi)) with _ | ⟨id, r2⟩
    · rw [hidx] at h; simp at h
    · rw [hidx] at h
      dsimp only at h
      rcases hrec : nvGpuRun r2 pre i (subi + 1) rest with _ | p
      · rw [hrec] at h; simp at h
      · rw [hrec] at h
        simp only [Option.map_some', Option.some_inj] at h
        obtain ⟨ho, hrF⟩ := Prod.mk.injEq .. ▸ h
        have hstep : StepOk r (r.insert (strDisplayid pre did)) :=
          insert_StepOk (fun x hx => hx) _
        obtain ⟨hti1, hti2⟩ := finalize_spec hidx
        obtain ⟨hsub, hfresh⟩ := try_insert_with_StepOk hstep (some (strIndexDot i subi))
        rw [hti2] at hsub
        obtain ⟨hid_not, hid_in⟩ := hfresh id hti1
        rw [hti2] at hid_in
        have hfam : NvFam id := by
          rcases try_insert_with_chooses hti1 with hc | ⟨_, c, hceq, hcs, _, _⟩
          · obtain ⟨h1, _, _⟩ := insert_spec r (strDisplayid pre did)
            obtain ⟨he, _, _⟩ := h1 id hc
            rw [he]
            exact nvFam_sanitize_strDisplayid pre did
          · simp only [Option.some_inj] at hceq
            rw [hcs, ← hceq, sanitize_strIndexDot]
            exact Or.inr ⟨i, subi, rfl⟩
        obtain ⟨hsub2, hmem2, hpw2⟩ := ih r2 pre i (subi + 1) p.1 p.2 hrec
        subst ho
        refine ⟨fun x hx => by rw [← hrF]; exact hsub2 (hsub hx), ?_, ?_⟩
        · intro x hx
          simp only [okStrs, List.filterMap_cons] at hx
          rcases List.mem_cons.mp hx with rfl | hx
          · exact ⟨by rw [← hrF]; exact hsub2 hid_in, hid_not, hfam⟩
          · obtain ⟨h1, h2, h3⟩ := hmem2 x hx
            exact ⟨by rw [← hrF]; exact h1, fun hb => h2 (hsub hb), h3⟩
        · simp only [okStrs, List.filterMap_cons]
          refine List.pairwise_cons.mpr ⟨?_, hpw2⟩
          intro y hy he
          obtain ⟨_, h2, _⟩ := hmem2 y hy
          exact h2 (he ▸ hid_in)

/-- NVAPI pass: distinct, NVAPI-family ids. -/
theorem nvRun_spec :
    ∀ (gpus : List GpuIn) (r : IdRegistry) (i : Nat)
      (out : List (Except Nat Str)) (rF : IdRegistry),
      nvRun r i gpus = some (out, rF) →
      r.ids ⊆ rF.ids ∧ (∀ id ∈ okStrs out, id ∈ rF.ids ∧ id ∉ r.ids ∧ NvFam id) ∧
        (okStrs out).Pairwise Ne := by
  intro gpus
  induction gpus with
  | nil =>
    intro r i out rF h
    simp only [nvRun, Option.some_inj, Prod.mk.injEq] at h
    obtain ⟨h1, h2⟩ := h
    subst h1; subst h2
    exact ⟨fun x hx => hx, by simp [okStrs], by simp [okStrs]⟩
  | cons gpu rest ih =>
    intro r i out rF h
    simp only [nvRun] at h
    rcases hids : gpu.ids with e | dids
    · rw [hids] at h
      dsimp only at h
      rcases hrec : nvRun r (i + 1) rest with _ | p
      · rw [hrec] at h; simp at h
      · rw [hrec] at h
        simp only [Option.map_some', Option.some_inj] at h
        obtain ⟨ho, hrF⟩ := Prod.mk.injEq .. ▸ h
        obtain ⟨hsub2, hmem2, hpw2⟩ := ih r (i + 1) p.1 p.2 hrec
        subst ho
        refine ⟨by rw [← hrF]; exact hsub2, ?_, ?_⟩
        · intro x hx
          simp only [okStrs, List.filterMap_cons] at hx
          obtain ⟨h1, h2, h3⟩ := hmem2 x hx
          exact ⟨by rw [← hrF]; exact h1, h2, h3⟩
        · simpa only [okStrs, List.filterMap_cons] using hpw2
    · rw [hids] at h
      dsimp only at h
      rcases hg : nvGpuRun r (gpu.shortName.getD (chars "NVAPI")) i 0 dids with _ | q
      · rw [hg] at h; simp at h
      · rw [hg] at h
        dsimp only at h
        rcases hrec : nvRun q.2 (i + 1) rest with _ | p
        · rw [hrec] at h; simp at h
        · rw [hrec] at h
          simp only [Option.map_some', Option.some_inj] at h
          obtain ⟨ho, hrF⟩ := Prod.mk.injEq .. ▸ h
          obtain ⟨hsubg, hmemg, hpwg⟩ :=
            nvGpuRun_spec dids r (gpu.shortName.getD (chars "NVAPI")) i 0 q.1 q.2 hg
          obtain ⟨hsub2, hmem2, hpw2⟩ := ih q.2 (i + 1) p.1 p.2 hrec
          subst ho
          refine ⟨fun x hx => by rw [← hrF]; exact hsub2 (hsubg hx), ?_, ?_⟩
          · intro x hx
            simp only [okStrs, List.filterMap_append] at hx
            rcases List.mem_append.mp hx with hx | hx
            · obtain ⟨h1, h2, h3⟩ := hmemg x hx
              exact ⟨by rw [← hrF]; exact hsub2 h1, h2, h3⟩
            · obtain ⟨h1, h2, h3⟩ := hmem2 x hx
              exact ⟨by rw [← hrF]; exact h1, fun hb => h2 (hsubg hb), h3⟩
          · simp only [okStrs, List.filterMap_append]
            rw [List.pairwise_append]
            refine ⟨hpwg, hpw2, ?_⟩
            intro a ha b hb he
            obtain ⟨ha1, _, _⟩ := hmemg a ha
            obtain ⟨_, hb2, _⟩ := hmem2 b hb
            exact hb2 (he ▸ ha1)

/-! ## Structure of the correlated records' positional indices -/

/-- The `(output index, physical monitor index)` of a live-monitor record. -/
def recIdx (rec : WRec) : Option (Nat × Nat) :=
  match rec.phy with
  | some (.ok (_, ii), oi) => some (oi, ii)
  | _ => none

/-- The index pairs `(oi, ii), (oi, ii+1), …` of one output's monitors. -/
def idxList (oi ii n : Nat) : List (Nat × Nat) :=
  (List.range n).map (fun k => (oi, ii + k))

theorem idxList_succ (oi ii n : Nat) :
    idxList oi ii (n + 1) = (oi, ii) :: idxList oi (ii + 1) n := by
  unfold idxList
  rw [List.range_succ_eq_map, List.map_cons, List.map_map]
  refine congrArg (List.cons _) ?_
  refine List.map_congr_left ?_
  intro k _
  simp only [Function.comp_apply, Prod.mk.injEq, true_and]
  omega

theorem idxList_fst {oi ii n : Nat} {pr : Nat × Nat} (h : pr ∈ idxList oi ii n) :
    pr.1 = oi := by
  unfold idxList at h
  obtain ⟨k, _, rfl⟩ := List.mem_map.mp h
  rfl

theorem idxList_nodup (oi ii n : Nat) : (idxList oi ii n).Nodup := by
  unfold idxList
  refine (List.nodup_range n).map ?_
  intro a b h
  simp only [Prod.mk.injEq, true_and] at h
  omega

theorem physPass_recIdx :
    ∀ (ps : List Phy) (dd : Option Nat) (dn : Option Str) (oi ii : Nat)
      (pool : List SiItem2),
      ((physPass dd dn oi ii ps pool).1).filterMap recIdx = idxList oi ii ps.length := by
  intro ps
  induction ps with
  | nil => intro dd dn oi ii pool; simp [physPass, idxList]
  | cons p ps ih =>
    intro dd dn oi ii pool
    simp only [physPass]
    rcases hfr : (findRemove (siMatchesDd dd) pool).1 with _ | it
    · simp only [hfr, List.filterMap_cons]
      rw [List.length_cons, idxList_succ]
      exact congrArg (List.cons _) (ih dd dn oi (ii + 1) _)
    · rcases it with e | sr
      · simp only [hfr, List.filterMap_cons]
        rw [List.length_cons, idxList_succ]
        exact congrArg (List.cons _) (ih dd dn oi (ii + 1) _)
      · simp only [hfr, List.filterMap_cons]
        rw [List.length_cons, idxList_succ]
        exact congrArg (List.cons _) (ih dd dn oi (ii + 1) _)

theorem outputsPass_recIdx_facts (dds : DisplayDevs) :
    ∀ (outs : List Output) (i : Nat) (pool : List SiItem2),
      (((outputsPass dds i outs pool).1).filterMap recIdx).Nodup ∧
        ∀ pr ∈ ((outputsPass dds i outs pool).1).filterMap recIdx, i ≤ pr.1 := by
  intro outs
  induction outs with
  | nil => intro i pool; simp [outputsPass]
  | cons out rest ih =>
    intro i pool
    simp only [outputsPass]
    rcases hph : out.phys with e | phys
    · simp only [List.filterMap_cons]
      have hrec : recIdx ⟨some (.error e, i), out.devName,
          ((dds.find? (fun d => out.matchesDev d.1)).map (fun d => d.1)).map .inr, none⟩
          = none := rfl
      rw [hrec]
      obtain ⟨h1, h2⟩ := ih (i + 1) pool
      exact ⟨h1, fun pr hpr => le_trans (Nat.le_succ i) (h2 pr hpr)⟩
    · rw [List.filterMap_append]
      rw [physPass_recIdx]
      obtain ⟨h1, h2⟩ := ih (i + 1) (physPass
        ((dds.find? (fun d => out.matchesDev d.1)).map (fun d => d.1)) out.devName i 0
          phys pool).2
      rw [List.nodup_append]
      refine ⟨⟨idxList_nodup i 0 phys.length, h1, ?_⟩, ?_⟩
      · intro pr hpr hpr2
        have hf := idxList_fst hpr
        have := h2 pr hpr2
        omega
      · intro pr hpr
        rcases List.mem_append.mp hpr with h | h
        · exact le_of_eq (idxList_fst h).symm
        · exact le_trans (Nat.le_succ i) (h2 pr h)

theorem drainSi_recIdx : ∀ (pool : List SiItem2), (drainSi pool).filterMap recIdx = [] := by
  intro pool
  induction pool with
  | nil => rfl
  | cons it rest ih =>
    rcases it with e | sr
    · simpa [drainSi, List.filterMap_cons, recIdx] using ih
    · simpa [drainSi, List.filterMap_cons, recIdx] using ih

theorem winCorrelate_recIdx_nodup (dds : DisplayDevs) (outs : List Output)
    (sis : List SiItem) : (((winCorrelate dds outs sis).1).filterMap recIdx).Nodup := by
  unfold winCorrelate
  rw [List.filterMap_append, drainSi_recIdx, List.append_nil]
  exact (outputsPass_recIdx_facts dds outs 0 _).1

/-! ## The id chain: per-step invariants -/

/-- A string that is not any `hmoni:<a>/<b>` positional id. -/
def NonHmoni (x : Str) : Prop := ∀ a b, x ≠ strHmoni a b

theorem strHmoniAppend (a b : Nat) :
    strHmoni a b = chars "hmoni:" ++ (natRepr a ++ '/' :: natRepr b) := by
  unfold strHmoni
  rw [List.append_assoc]

theorem nonHmoni_of_chars {p : Str} (hp : prefIncompat p (chars "hmoni:") = true) (t : Str) :
    NonHmoni (p ++ t) := by
  intro a b h
  rw [strHmoniAppend] at h
  exact ne_append_of_prefIncompat p (chars "hmoni:") t _ hp h

/-- The invariant carried along one record's id chain, relative to the
registry at the start of the record: the registry only grows, a chosen id is
fresh with respect to the record start, belongs to the Windows families, and
everything newly registered is non-positional. -/
def WChain (base : IdRegistry) (s : Option Str × IdRegistry) : Prop :=
  base.ids ⊆ s.2.ids ∧
  (∀ x, s.1 = some x → x ∉ base.ids ∧ x ∈ s.2.ids ∧ WinFam x) ∧
  (∀ x ∈ s.2.ids, x ∈ base.ids ∨ NonHmoni x)

theorem WChain_discard {base : IdRegistry} {s : Option Str × IdRegistry}
    (h : WChain base s) : WChain base ((none : Option Str), s.2) :=
  ⟨h.1, fun x hx => by simp at hx, h.2.2⟩

theorem insert_WChain {base r : IdRegistry} {y : Str}
    (hsub : base.ids ⊆ r.ids) (hadds : ∀ x ∈ r.ids, x ∈ base.ids ∨ NonHmoni x)
    (hy : WinFam (sanitize_id y) ∧ NonHmoni (sanitize_id y)) :
    WChain base (r.insert y) := by
  obtain ⟨h1, h2, h3⟩ := insert_spec r y
  refine ⟨fun x hx => h3 (hsub hx), ?_, ?_⟩
  · intro x hx
    obtain ⟨he, hnotin, hids⟩ := h1 x hx
    subst he
    exact ⟨fun hb => hnotin (hsub hb), by rw [hids]; exact List.mem_cons_self _ _, hy.1⟩
  · intro x hx
    rcases hres : (r.insert y).1 with _ | v
    · rw [h2 hres] at hx
      exact hadds x hx
    · obtain ⟨he, _, hids⟩ := h1 v hres
      rw [hids] at hx
      rcases List.mem_cons.mp hx with rfl | hx
      · exact Or.inr (he ▸ hy.2)
      · exact hadds x hx

theorem try_insert_WChain {base : IdRegistry} {s : Option Str × IdRegistry}
    (h : WChain base s) {cand : Option Str}
    (hc : ∀ c, cand = some c → WinFam (sanitize_id c) ∧ NonHmoni (sanitize_id c)) :
    WChain base (s.2.try_insert_with s.1 cand) := by
  unfold IdRegistry.try_insert_with
  rcases hs : s.1 with _ | p
  · rcases cand with _ | c
    · exact ⟨h.1, fun x hx => by simp at hx, h.2.2⟩
    · exact insert_WChain h.1 h.2.2 (hc c rfl)
  · refine ⟨h.1, ?_, h.2.2⟩
    intro x hx
    simp only [Option.some_inj] at hx
    subst hx
    exact h.2.1 _ hs

/-- A prefixed candidate family: its sanitized members stay in the family and
are never positional `hmoni:` strings. -/
theorem famCand_pre {p : Str} (hp : ∀ c ∈ p, specialChar c = false)
    (hfam : ∀ t, WinFam (p ++ t)) (hinc : prefIncompat p (chars "hmoni:") = true)
    (s : Str) :
    WinFam (sanitize_id (p ++ s)) ∧ NonHmoni (sanitize_id (p ++ s)) := by
  obtain ⟨t, ht⟩ := sanitize_id_append hp s
  rw [ht]
  exact ⟨hfam t, nonHmoni_of_chars hinc t⟩

theorem idStep1_WChain (r : IdRegistry) (rec : WRec) : WChain r (idStep1 r rec) := by
  unfold idStep1
  rcases hm : rec.mon with _ | mr
  · exact ⟨fun x hx => hx, by simp, fun x hx => Or.inl hx⟩
  rcases mr with m | d
  · dsimp only
    refine insert_WChain (fun x hx => hx) (fun x hx => Or.inl hx) ?_
    unfold strMon
    exact famCand_pre (by decide) (fun t => Or.inl ⟨t, rfl⟩) (by decide) m.id
  · exact ⟨fun x hx => hx, by simp, fun x hx => Or.inl hx⟩

theorem idStep2_WChain {base : IdRegistry} {s : Option Str × IdRegistry}
    (h : WChain base s) (rec : WRec) : WChain base (idStep2 s.2 s.1 rec) := by
  unfold idStep2
  rcases hsi : rec.si with _ | esi
  · exact WChain_discard h
  rcases esi with e | simon
  · exact WChain_discard h
  · dsimp only
    have hc1 : ∀ c, simon.iid.map strIid = some c →
        WinFam (sanitize_id c) ∧ NonHmoni (sanitize_id c) := by
      intro c hc
      obtain ⟨v, _, rfl⟩ := Option.map_eq_some'.mp hc
      unfold strIid
      exact famCand_pre (by decide) (fun t => Or.inr (Or.inl ⟨t, rfl⟩)) (by decide) v
    have hc2 : ∀ c, simon.hw.map strHw = some c →
        WinFam (sanitize_id c) ∧ NonHmoni (sanitize_id c) := by
      intro c hc
      obtain ⟨v, _, rfl⟩ := Option.map_eq_some'.mp hc
      unfold strHw
      exact famCand_pre (by decide) (fun t => Or.inr (Or.inr (Or.inl ⟨t, rfl⟩))) (by decide) v
    exact try_insert_WChain (try_insert_WChain h hc1) hc2

theorem strHmonAppend (name : Str) (ii : Nat) :
    strHmon name ii = chars "hmon:" ++ (name ++ chars "\\Monitor" ++ natRepr ii) := by
  simp [strHmon, List.append_assoc]

theorem nonHmoni_strIndex (i : Nat) : NonHmoni (strIndex i) := by
  unfold strIndex
  exact nonHmoni_of_chars (by decide) (natRepr i)

theorem idStep3_spec {base : IdRegistry} {s : Option Str × IdRegistry}
    (h : WChain base s) {rec : WRec}
    (hmo : ∀ a b, recIdx rec = some (a, b) → strHmoni a b ∉ base.ids) :
    base.ids ⊆ (idStep3 s.2 s.1 rec).2.ids ∧
    (∀ x, (idStep3 s.2 s.1 rec).1 = some x →
      x ∉ base.ids ∧ x ∈ (idStep3 s.2 s.1 rec).2.ids ∧ WinFam x) ∧
    (∀ x ∈ (idStep3 s.2 s.1 rec).2.ids, x ∈ base.ids ∨ NonHmoni x ∨
      ∃ a b, recIdx rec = some (a, b) ∧ x = strHmoni a b) := by
  unfold idStep3
  rcases hphy : rec.phy with _ | pr
  · exact ⟨h.1, by simp, fun x hx => (h.2.2 x hx).imp id Or.inl⟩
  rcases pr with ⟨pe, oi⟩
  rcases pe with e | pii
  · exact ⟨h.1, by simp, fun x hx => (h.2.2 x hx).imp id Or.inl⟩
  rcases pii with ⟨p, ii⟩
  dsimp only
  have hidx : recIdx rec = some (oi, ii) := by unfold recIdx; rw [hphy]
  have h1 : WChain base (s.2.try_insert_with s.1
      (rec.devName.map (fun n => strHmon n ii))) := by
    refine try_insert_WChain h ?_
    intro c hc
    obtain ⟨v, _, rfl⟩ := Option.map_eq_some'.mp hc
    rw [strHmonAppend]
    exact famCand_pre (by decide)
      (fun t => Or.inr (Or.inr (Or.inr (Or.inl ⟨t, rfl⟩)))) (by decide) _
  set s1 := s.2.try_insert_with s.1 (rec.devName.map (fun n => strHmon n ii)) with hs1
  have h2 : WChain base (s1.2.try_insert_with s1.1 (descCand p)) := by
    refine try_insert_WChain h1 ?_
    intro c hc
    unfold descCand at hc
    by_cases hg : p.descr = genericPnp
    · simp [hg] at hc
    · simp only [hg, if_false, if_neg, Option.some_inj] at hc
      subst hc
      unfold strDesc
      exact famCand_pre (by decide)
        (fun t => Or.inr (Or.inr (Or.inr (Or.inr (Or.inl ⟨t, rfl⟩))))) (by decide) _
  set s2 := s1.2.try_insert_with s1.1 (descCand p) with hs2
  rcases hv : s2.1 with _ | v
  · -- the accumulated id is absent: the positional id is inserted, and the
    -- insertion cannot collide, so `or_else` is never consulted
    have hmoni_notin : strHmoni oi ii ∉ s2.2.ids := by
      intro hin
      rcases h2.2.2 _ hin with hb | hnh
      · exact hmo oi ii hidx hb
      · exact hnh oi ii rfl
    have hins : s2.2.try_insert_with none (some (strHmoni oi ii)) =
        (some (strHmoni oi ii), ⟨strHmoni oi ii :: s2.2.ids⟩) := by
      unfold IdRegistry.try_insert_with IdRegistry.insert
      dsimp only
      rw [sanitize_strHmoni]
      simp [hmoni_notin]
    rw [hins]
    dsimp only
    refine ⟨fun x hx => List.mem_cons_of_mem _ (h2.1 hx), ?_, ?_⟩
    · intro x hx
      simp only [Option.some_inj] at hx
      subst hx
      refine ⟨fun hb => hmoni_notin (h2.1 hb), List.mem_cons_self _ _, ?_⟩
      rw [strHmoniAppend]
      exact Or.inr (Or.inr (Or.inr (Or.inr (Or.inr (Or.inl ⟨_, rfl⟩)))))
    · intro x hx
      rcases List.mem_cons.mp hx with rfl | hx
      · exact Or.inr (Or.inr ⟨oi, ii, hidx, rfl⟩)
      · exact (h2.2.2 x hx).imp id Or.inl
  · -- the accumulated id is kept
    have hkeep : s2.2.try_insert_with (some v) (some (strHmoni oi ii)) = (some v, s2.2) := by
      unfold IdRegistry.try_insert_with
      rfl
    rw [hkeep]
    dsimp only
    refine ⟨h2.1, ?_, fun x hx => (h2.2.2 x hx).imp id Or.inl⟩
    intro x hx
    simp only [Option.some_inj] at hx
    subst hx
    exact h2.2.1 _ hv

/-- One record's whole id derivation: under the positional-id invariant, the
chosen id is freshly registered, belongs to the Windows families, and the only
positional string possibly added to the registry is the record's own. -/
theorem idChain_spec {r : IdRegistry} {i : Nat} {rec : WRec}
    (hmo : ∀ a b, recIdx rec = some (a, b) → strHmoni a b ∉ r.ids) :
    ∀ {id : Str} {r2 : IdRegistry}, idChain r i rec = some (id, r2) →
      r.ids ⊆ r2.ids ∧ id ∉ r.ids ∧ id ∈ r2.ids ∧ WinFam id ∧
      (∀ x ∈ r2.ids, x ∈ r.ids ∨ NonHmoni x ∨
        ∃ a b, recIdx rec = some (a, b) ∧ x = strHmoni a b) := by
  intro id r2 h
  unfold idChain at h
  dsimp only at h
  have h1 : WChain r (idStep1 r rec) := idStep1_WChain r rec
  have h2 : WChain r (idStep2 (idStep1 r rec).2 (idStep1 r rec).1 rec) :=
    idStep2_WChain h1 rec
  have h3 := idStep3_spec h2 hmo
  set s3 := idStep3 (idStep2 (idStep1 r rec).2 (idStep1 r rec).1 rec).2
    (idStep2 (idStep1 r rec).2 (idStep1 r rec).1 rec).1 rec with hs3
  obtain ⟨hti1, hti2⟩ := finalize_spec h
  rcases try_insert_with_chooses hti1 with hc | ⟨hnone, c, hceq, hcs, hcnot, hcids⟩
  · obtain ⟨hid_not, hid_in, hfam⟩ := h3.2.1 id hc
    have hr2 : s3.2.try_insert_with s3.1 (some (strIndex i)) = (some id, s3.2) := by
      rw [hc]
      unfold IdRegistry.try_insert_with
      rfl
    rw [hr2] at hti2
    dsimp only at hti2
    subst hti2
    exact ⟨h3.1, hid_not, hid_in, hfam, h3.2.2⟩
  · simp only [Option.some_inj] at hceq
    subst hceq
    rw [sanitize_strIndex] at hcs
    subst hcs
    have hr2ids : r2.ids = strIndex i :: s3.2.ids := by
      rw [← hti2]; exact hcids
    refine ⟨?_, ?_, ?_, ?_, ?_⟩
    · intro x hx
      rw [hr2ids]
      exact List.mem_cons_of_mem _ (h3.1 hx)
    · exact fun hb => hcnot (h3.1 hb)
    · rw [hr2ids]; exact List.mem_cons_self _ _
    · exact Or.inr (Or.inr (Or.inr (Or.inr (Or.inr (Or.inr ⟨i, rfl⟩)))))
    · intro x hx
      rw [hr2ids] at hx
      rcases List.mem_cons.mp hx with rfl | hx
      · exact Or.inr (Or.inl (nonHmoni_strIndex i))
      · exact h3.2.2 x hx

/-- `recFinish` keeps the derived id on the display it builds. -/
theorem recFinish_id {id : Str} {rec : WRec} {d : WDisplay}
    (h : recFinish id rec = some (.ok d)) : d.id = id := by
  unfold recFinish at h
  rcases hphy : rec.phy with _ | ⟨pe, oi⟩
  · rcases hsi : rec.si with _ | esi
    · rw [hphy, hsi] at h
      simp at h
    · rcases esi with e | se
      · rw [hphy, hsi] at h
        simp at h
      · rw [hphy, hsi] at h
        dsimp only at h
        simp only [Option.some_inj, Except.ok.injEq] at h
        rw [← h]
  · rcases pe with e2 | ⟨p, ii⟩
    · rcases hsi : rec.si with _ | esi
      · rw [hphy, hsi] at h
        simp at h
      · rcases esi with e | se
        · rw [hphy, hsi] at h
          simp at h
        · rw [hphy, hsi] at h
          dsimp only at h
          simp only [Option.some_inj, Except.ok.injEq] at h
          rw [← h]
    · rcases hsi : rec.si with _ | esi
      · rw [hphy, hsi] at h
        dsimp only at h
        simp only [Option.some_inj, Except.ok.injEq] at h
        rw [← h]
      · rcases esi with e | se
        · rw [hphy, hsi] at h
          dsimp only at h
          simp only [Option.some_inj, Except.ok.injEq] at h
          rw [← h]
        · rw [hphy, hsi] at h
          dsimp only at h
          simp only [Option.some_inj, Except.ok.injEq] at h
          rw [← h]

/-- The id strings of the displays of a Windows enumeration result. -/
def dispIds (l : List (Except Nat WDisplay)) : List Str :=
  l.filterMap (fun it =>
    match it with
    | .ok d => some d.id
    | .error _ => none)

theorem idPhase_spec :
    ∀ (rs : List WRec) (r : IdRegistry) (i : Nat) (P : List (Nat × Nat))
      (out : List (Except Nat WDisplay)),
      (∀ a b, strHmoni a b ∈ r.ids → (a, b) ∈ P) →
      (P ++ rs.filterMap recIdx).Nodup →
      idPhase r i rs = some out →
      (dispIds out).Pairwise Ne ∧ ∀ id ∈ dispIds out, id ∉ r.ids ∧ WinFam id := by
  intro rs
  induction rs with
  | nil =>
    intro r i P out _ _ h
    simp only [idPhase, Option.some_inj] at h
    subst h
    simp [dispIds]
  | cons rec rest ih =>
    intro r i P out hinv hnd h
    simp only [idPhase] at h
    rcases hch : idChain r i rec with _ | ⟨id, r2⟩
    · rw [hch] at h; simp at h
    · rw [hch] at h
      dsimp only at h
      rcases hfin : recFinish id rec with _ | o
      · rw [hfin] at h; simp at h
      · rw [hfin] at h
        dsimp only at h
        rcases hrec : idPhase r2 (i + 1) rest with _ | l
        · rw [hrec] at h; simp at h
        · rw [hrec] at h
          simp only [Option.map_some', Option.some_inj] at h
          subst h
          have hmo : ∀ a b, recIdx rec = some (a, b) → strHmoni a b ∉ r.ids := by
            intro a b hab hin
            have hP := hinv a b hin
            rw [List.filterMap_cons, hab] at hnd
            obtain ⟨_, _, hdisj⟩ := List.nodup_append.mp hnd
            exact hdisj hP (List.mem_cons_self _ _)
          obtain ⟨hsub, hfr, hmem, hfam, hadds⟩ := idChain_spec hmo hch
          have hinv2 : ∀ a b, strHmoni a b ∈ r2.ids →
              (a, b) ∈ P ++ (recIdx rec).toList := by
            intro a b hin
            rcases hadds _ hin with hb | hnh | ⟨a', b', hab, he⟩
            · exact List.mem_append_left _ (hinv a b hb)
            · exact absurd rfl (hnh a b)
            · obtain ⟨ha, hb'⟩ := strHmoni_inj he
              subst ha; subst hb'
              rw [hab]
              exact List.mem_append_right _ (List.mem_cons_self _ _)
          have hnd2 : ((P ++ (recIdx rec).toList) ++ rest.filterMap recIdx).Nodup := by
            rw [List.filterMap_cons] at hnd
            rcases hab : recIdx rec with _ | pr
            · rw [hab] at hnd
              simpa using hnd
            · rw [hab] at hnd
              rw [List.append_assoc]
              simpa using hnd
          obtain ⟨hpw, hids⟩ := ih r2 (i + 1) (P ++ (recIdx rec).toList) l hinv2 hnd2 hrec
          rcases o with t | d
          · simp only [dispIds, List.filterMap_cons]
            refine ⟨hpw, ?_⟩
            intro x hx
            exact ⟨fun hb => (hids x hx).1 (hsub hb), (hids x hx).2⟩
          · have hdid : d.id = id := recFinish_id hfin
            simp only [dispIds, List.filterMap_cons]
            constructor
            · refine List.pairwise_cons.mpr ⟨?_, hpw⟩
              intro y hy he
              exact (hids y hy).1 (he ▸ hdid ▸ hmem)
            · intro x hx
              rcases List.mem_cons.mp hx with rfl | hx
              · exact ⟨hdid ▸ hfr, hdid ▸ hfam⟩
              · exact ⟨fun hb => (hids x hx).1 (hsub hb), (hids x hx).2⟩

/-- C1, Windows portion: whenever `enumerate_winapi` returns, the ids of the
returned displays are pairwise distinct — including the `or_else` positional
fallback, which is proved unreachable — and all belong to the Windows id
families. -/
theorem enumerateWinapi_spec (dds : DisplayDevs) (outs : List Output) (sis : List SiItem)
    (out : List (Except Nat WDisplay)) (h : enumerateWinapi dds outs sis = some out) :
    (dispIds out).Pairwise Ne ∧ ∀ id ∈ dispIds out, WinFam id := by
  unfold enumerateWinapi at h
  have hnd : (([] : List (Nat × Nat)) ++
      ((winCorrelate dds outs sis).1.filterMap recIdx)).Nodup := by
    simpa using winCorrelate_recIdx_nodup dds outs sis
  obtain ⟨h1, h2⟩ := idPhase_spec _ ⟨[]⟩ 0 [] out (by simp) hnd h
  exact ⟨h1, fun id hid => (h2 id hid).2⟩

/-! ## Claim C1: identity uniqueness across one enumeration pass -/

/-- The id strings of the successfully enumerated displays. -/
def enumIds (l : List (Except (Backend × Nat) EnumDisplay)) : List Str :=
  l.filterMap (fun it =>
    match it with
    | .ok d => some d.id
    | .error _ => none)

/-- The successfully enumerated displays. -/
def okDisplays (l : List (Except (Backend × Nat) EnumDisplay)) : List EnumDisplay :=
  l.filterMap (fun it =>
    match it with
    | .ok d => some d
    | .error _ => none)

theorem edidStep_eq (d : EnumDisplay) (res : Except Error Unit) : edidStep d res = d := by
  rcases res with e | u
  · cases e <;> rfl
  · rfl

theorem enumerateCollect_conv (edidRes : EnumDisplay → Except Error Unit) :
    ∀ (l : List (Except (Backend × Nat) EnumDisplay)),
      enumerateCollect (l.map (fun it =>
        match it with
        | .ok d => .ok (d, edidRes d)
        | .error e => .error ⟨e.1, e.2⟩)) = okDisplays l := by
  intro l
  induction l with
  | nil => rfl
  | cons it rest ih =>
    rcases it with e | d
    · simpa [enumerateCollect, okDisplays] using ih
    · simp only [List.map_cons, enumerateCollect, okDisplays, List.filterMap_cons] at ih ⊢
      rw [edidStep_eq]
      exact congrArg (List.cons d) ih

theorem enumIds_eq_map :
    ∀ (l : List (Except (Backend × Nat) EnumDisplay)),
      enumIds l = (okDisplays l).map (fun d => d.id) := by
  intro l
  induction l with
  | nil => rfl
  | cons it rest ih =>
    rcases it with e | d
    · simpa [enumIds, okDisplays] using ih
    · simp only [enumIds, okDisplays, List.filterMap_cons, List.map_cons] at ih ⊢
      exact congrArg (List.cons d.id) ih

theorem enumIds_tagItems (b : Backend) :
    ∀ (l : List (Except Nat Str)), enumIds (tagItems b l) = okStrs l := by
  intro l
  induction l with
  | nil => rfl
  | cons it rest ih =>
    rcases it with e | s
    · simpa [enumIds, tagItems, okStrs] using ih
    · simp only [enumIds, tagItems, okStrs, List.map_cons, List.filterMap_cons] at ih ⊢
      exact congrArg (List.cons s) ih

theorem enumIds_winItems :
    ∀ (l : List (Except Nat WDisplay)), enumIds (winItems l) = dispIds l := by
  intro l
  induction l with
  | nil => rfl
  | cons it rest ih =>
    rcases it with e | d
    · simpa [enumIds, winItems, dispIds] using ih
    · simp only [enumIds, winItems, dispIds, List.map_cons, List.filterMap_cons] at ih ⊢
      exact congrArg (List.cons d.id) ih

theorem enumIds_macItems :
    ∀ (l : List Str), enumIds (l.map (fun id =>
      (.ok ⟨Backend.MacOS, id⟩ : Except (Backend × Nat) EnumDisplay))) = l := by
  intro l
  induction l with
  | nil => rfl
  | cons s rest ih =>
    simp only [enumIds, List.map_cons, List.filterMap_cons] at ih ⊢
    exact congrArg (List.cons s) ih

theorem i2cPart_spec (c : Cfg) (inp : AllInputs) (l : List (Except (Backend × Nat) EnumDisplay))
    (h : i2cPart c inp = some l) : (enumIds l).Pairwise Ne := by
  unfold i2cPart at h
  by_cases hc : c.i2c
  · rw [if_pos hc] at h
    rcases hsrc : inp.i2cSrc with t | devs
    · rw [hsrc] at h
      simp only [Option.some_inj] at h
      subst h
      simp [enumIds]
    · rw [hsrc] at h
      dsimp only at h
      rcases hr : i2cRun ⟨[]⟩ 0 devs with _ | p
      · rw [hr] at h; simp at h
      · rw [hr] at h
        simp only [Option.map_some', Option.some_inj] at h
        subst h
        rw [enumIds_tagItems]
        exact (i2cRun_spec devs ⟨[]⟩ 0 p.1 p.2 hr).2.2
  · rw [if_neg hc] at h
    simp only [Option.some_inj] at h
    subst h
    simp [enumIds]

theorem winPart_spec (c : Cfg) (inp : AllInputs) (l : List (Except (Backend × Nat) EnumDisplay))
    (h : winPart c inp = some l) :
    (enumIds l).Pairwise Ne ∧ ∀ id ∈ enumIds l, WinFam id := by
  unfold winPart at h
  by_cases hc : c.winapi
  · rw [if_pos hc] at h
    rcases hsrc : inp.winSrc with t | src
    · rw [hsrc] at h
      simp only [Option.some_inj] at h
      subst h
      simp [enumIds]
    · rw [hsrc] at h
      dsimp only at h
      rcases hr : enumerateWinapi src.1 src.2.1 src.2.2 with _ | out
      · rw [hr] at h; simp at h
      · rw [hr] at h
        simp only [Option.map_some', Option.some_inj] at h
        subst h
        rw [enumIds_winItems]
        exact enumerateWinapi_spec _ _ _ out hr
  · rw [if_neg hc] at h
    simp only [Option.some_inj] at h
    subst h
    simp [enumIds]

theorem macPart_spec (c : Cfg) (inp : AllInputs) (l : List (Except (Backend × Nat) EnumDisplay))
    (h : macPart c inp = some l) : (enumIds l).Pairwise Ne := by
  unfold macPart at h
  by_cases hc : c.macos
  · rw [if_pos hc] at h
    rcases hsrc : inp.macSrc with t | descrs
    · rw [hsrc] at h
      simp only [Option.some_inj] at h
      subst h
      simp [enumIds]
    · rw [hsrc] at h
      dsimp only at h
      rcases hr : macosRun ⟨[]⟩ 0 descrs with _ | p
      · rw [hr] at h; simp at h
      · rw [hr] at h
        simp only [Option.map_some', Option.some_inj] at h
        subst h
        rw [enumIds_macItems]
        exact (macosRun_spec descrs ⟨[]⟩ 0 p.1 p.2 hr).2.2
  · rw [if_neg hc] at h
    simp only [Option.some_inj] at h
    subst h
    simp [enumIds]

theorem nvPart_spec (c : Cfg) (inp : AllInputs) (l : List (Except (Backend × Nat) EnumDisplay))
    (h : nvPart c inp = some l) :
    (enumIds l).Pairwise Ne ∧ ∀ id ∈ enumIds l, NvFam id := by
  unfold nvPart at h
  by_cases hc : c.nvapi
  · rw [if_pos hc] at h
    rcases hsrc : inp.nvSrc with t | gpus
    · rw [hsrc] at h
      simp only [Option.some_inj] at h
      subst h
      simp [enumIds]
    · rw [hsrc] at h
      dsimp only at h
      rcases hr : nvRun ⟨[]⟩ 0 gpus with _ | p
      · rw [hr] at h; simp at h
      · rw [hr] at h
        simp only [Option.map_some', Option.some_inj] at h
        subst h
        rw [enumIds_tagItems]
        obtain ⟨_, hmem, hpw⟩ := nvRun_spec gpus ⟨[]⟩ 0 p.1 p.2 hr
        exact ⟨hpw, fun id hid => (hmem id hid).2.2⟩
  · rw [if_neg hc] at h
    simp only [Option.some_inj] at h
    subst h
    simp [enumIds]

theorem winPart_off {c : Cfg} (inp : AllInputs) (h : c.winapi = false) :
    winPart c inp = some [] := by
  simp [winPart, h]

theorem nvPart_off {c : Cfg} (inp : AllInputs) (h : c.nvapi = false) :
    nvPart c inp = some [] := by
  simp [nvPart, h]

theorem macPart_off {c : Cfg} (inp : AllInputs) (h : c.macos = false) :
    macPart c inp = some [] := by
  simp [macPart, h]

theorem i2cPart_off {c : Cfg} (inp : AllInputs) (h : c.i2c = false) :
    i2cPart c inp = some [] := by
  simp [i2cPart, h]

/-- C1: for every backend combination realizable under `build.rs` and every
sequence of candidate identifier strings produced by the backends, when
`Display::enumerate` returns (no pass panicked), no two returned displays
share the same id. -/
theorem enumerate_unique_ids (c : Cfg) (inp : AllInputs)
    (edidRes : EnumDisplay → Except Error Unit) (ds : List EnumDisplay)
    (hv : c.valid) (h : enumerate c inp edidRes = some ds) :
    ds.Pairwise (fun a b => a.id ≠ b.id) := by
  unfold enumerate at h
  rcases hall : enumerateAll c inp with _ | l
  · rw [hall] at h; simp at h
  · rw [hall] at h
    simp only [Option.map_some', Option.some_inj] at h
    subst h
    rw [enumerateCollect_conv]
    have hgoal : (enumIds l).Pairwise Ne → (okDisplays l).Pairwise (fun a b => a.id ≠ b.id) := by
      intro hp
      rw [enumIds_eq_map] at hp
      exact (List.pairwise_map.mp hp).imp (fun hab => hab)
    apply hgoal
    unfold enumerateAll at hall
    rcases h1 : i2cPart c inp with _ | p1
    · rw [h1] at hall; simp at hall
    rcases h2 : winPart c inp with _ | p2
    · rw [h1, h2] at hall; simp at hall
    rcases h3 : macPart c inp with _ | p3
    · rw [h1, h2, h3] at hall; simp at hall
    rcases h4 : nvPart c inp with _ | p4
    · rw [h1, h2, h3, h4] at hall; simp at hall
    rw [h1, h2, h3, h4] at hall
    simp only [Option.bind_eq_bind, Option.some_bind, Option.some_inj] at hall
    subst hall
    simp only [enumIds, List.filterMap_append]
    by_cases hi : c.i2c = true
    · obtain ⟨hm, hw, hn⟩ := hv.1 hi
      obtain rfl : p2 = [] := by
        have := (winPart_off inp hw).symm.trans h2
        simpa using this
      obtain rfl : p3 = [] := by
        have := (macPart_off inp hm).symm.trans h3
        simpa using this
      obtain rfl : p4 = [] := by
        have := (nvPart_off inp hn).symm.trans h4
        simpa using this
      simpa [enumIds] using i2cPart_spec c inp p1 h1
    · have hi' : c.i2c = false := by
        simpa using hi
      obtain rfl : p1 = [] := by
        have := (i2cPart_off inp hi').symm.trans h1
        simpa using this
      by_cases hm : c.macos = true
      · obtain ⟨hw, hn⟩ := hv.2 hm
        obtain rfl : p2 = [] := by
          have := (winPart_off inp hw).symm.trans h2
          simpa using this
        obtain rfl : p4 = [] := by
          have := (nvPart_off inp hn).symm.trans h4
          simpa using this
        simpa [enumIds] using macPart_spec c inp p3 h3
      · have hm' : c.macos = false := by simpa using hm
        obtain rfl : p3 = [] := by
          have := (macPart_off inp hm').symm.trans h3
          simpa using this
        obtain ⟨hpw2, hfam2⟩ := winPart_spec c inp p2 h2
        obtain ⟨hpw4, hfam4⟩ := nvPart_spec c inp p4 h4
        simp only [List.filterMap_nil, List.append_nil, List.nil_append]
        rw [List.pairwise_append]
        refine ⟨?_, ?_, ?_⟩
        · simpa [enumIds] using hpw2
        · simpa [enumIds] using hpw4
        · intro a ha b hb
          exact winFam_nvFam_ne (hfam2 a (by simpa [enumIds] using ha))
            (hfam4 b (by simpa [enumIds] using hb))

/-- The concrete witness configuration: Windows plus NVAPI. -/
def witnessCfg : Cfg := ⟨false, true, false, true⟩

/-- Concrete enumeration sources for the witness: one display device with one
monitor device, two outputs (one with a generic-named monitor matched by a
device-info entry, one unmatched), and one NVAPI GPU reporting the same
display id twice. -/
def witnessInp : AllInputs :=
  ⟨.error 0,
    .ok ([(0, [⟨0, chars "m"⟩])],
      [⟨fun k => k == 0, some (chars "D1"), .ok [⟨chars "Generic PnP Monitor"⟩]⟩,
        ⟨fun _ => false, none, .ok [⟨chars "X"⟩]⟩],
      [.ok ⟨true, fun k => k == 0, fun m => m.id == chars "m", none, some (chars "HW")⟩]),
    .error 0,
    .ok [⟨some (chars "GTX"), .ok [7, 7]⟩]⟩

/-- The displays the witness enumeration returns. -/
def witnessDs : List EnumDisplay :=
  [⟨Backend.WinApi, chars "mon:m"⟩, ⟨Backend.WinApi, chars "desc:X"⟩,
    ⟨Backend.Nvapi, chars "displayid:GTX/7"⟩, ⟨Backend.Nvapi, chars "index:0.1"⟩]

/-- Witness for C1 at the concrete Windows + NVAPI pass above. -/
theorem enumerate_unique_ids_witness :
    Cfg.valid witnessCfg ∧
    enumerate witnessCfg witnessInp (fun _ => .error .UnsupportedOp) = some witnessDs ∧
    witnessDs.Pairwise (fun a b => a.id ≠ b.id) :=
  ⟨by decide, by decide,
    enumerate_unique_ids witnessCfg witnessInp (fun _ => .error .UnsupportedOp) witnessDs
      (by decide) (by decide)⟩

/-! ## Claim C4: the registry's terminal fallback can in fact collide -/

/-- Counterexample to C4 as stated: two macOS monitors both described as
`"index:1"` drive `finalize`'s internal `unwrap` into its panic branch —
the first description claims the string `index:1`, and the second display,
with its description candidate colliding, falls back to the pass-local index
id `index:1`, which is itself already assigned.  The second conjunct shows
the panic at the registry level. -/
theorem finalize_panic_counterexample :
    macosRun ⟨[]⟩ 0 [chars "index:1", chars "index:1"] = none ∧
      IdRegistry.finalize ⟨[chars "index:1"]⟩ none (chars "index:1") = none :=
  ⟨by decide, by decide⟩

/-! ## Claim C3: correlation completeness -/

/-- The matched monitor device carried by a record, if any. -/
def recMon (rec : WRec) : Option MonDev :=
  match rec.mon with
  | some (.inl m) => some m
  | _ => none

/-- The matched monitor device carried by a pre-pass item, if any. -/
def item2mon (it : SiItem2) : Option MonDev :=
  match it with
  | .ok sr =>
    match sr.mon with
    | some (.inl m) => some m
    | _ => none
  | .error _ => none

/-- Project a pre-pass item back onto the device-info item it came from. -/
def item2si (it : SiItem2) : Except Nat SiEntry :=
  match it with
  | .ok sr => .ok sr.entry
  | .error e => .error e

/-- The physical-monitor source elements of one output, positionally. -/
def expandOne (oi : Nat) : Nat → List Phy → List (Except Nat (Phy × Nat) × Nat)
  | _, [] => []
  | ii, p :: ps => (.ok (p, ii), oi) :: expandOne oi (ii + 1) ps

/-- The physical-monitor source elements of all outputs, in order; a failed
monitor enumeration contributes its error once. -/
def expandPhys : Nat → List Output → List (Except Nat (Phy × Nat) × Nat)
  | _, [] => []
  | i, out :: rest =>
    (match out.phys with
      | .error e => [(.error e, i)]
      | .ok ps => expandOne i 0 ps) ++ expandPhys (i + 1) rest

/-- Counterexample to C3 as stated: a monitor device node matched by no
device-info entry appears in *no* output record at all — it is dropped, where
the claim demands every source element appear exactly once. -/
theorem correlation_counterexample :
    ¬ (∀ m ∈ monitorDevices [(0, [⟨0, chars "m"⟩])],
        ((winCorrelate [(0, [⟨0, chars "m"⟩])] [] []).1.filterMap recMon).count m =
          (monitorDevices [(0, [⟨0, chars "m"⟩])]).count m) := by
  decide

/-! Towards the amended C3: list-level bookkeeping of the three source pools. -/

theorem physPass_phy :
    ∀ (ps : List Phy) (dd : Option Nat) (dn : Option Str) (oi ii : Nat)
      (pool : List SiItem2),
      ((physPass dd dn oi ii ps pool).1).filterMap (fun rec => rec.phy) =
        expandOne oi ii ps := by
  intro ps
  induction ps with
  | nil => intro dd dn oi ii pool; simp [physPass, expandOne]
  | cons p ps ih =>
    intro dd dn oi ii pool
    simp only [physPass, expandOne]
    rcases hfr : (findRemove (siMatchesDd dd) pool).1 with _ | it
    · simp only [List.filterMap_cons]
      exact congrArg (List.cons _) (ih dd dn oi (ii + 1) _)
    · rcases it with e | sr
      · simp only [List.filterMap_cons]
        exact congrArg (List.cons _) (ih dd dn oi (ii + 1) _)
      · simp only [List.filterMap_cons]
        exact congrArg (List.cons _) (ih dd dn oi (ii + 1) _)

theorem outputsPass_phy (dds : DisplayDevs) :
    ∀ (outs : List Output) (i : Nat) (pool : List SiItem2),
      ((outputsPass dds i outs pool).1).filterMap (fun rec => rec.phy) =
        expandPhys i outs := by
  intro outs
  induction outs with
  | nil => intro i pool; simp [outputsPass, expandPhys]
  | cons out rest ih =>
    intro i pool
    simp only [outputsPass, expandPhys]
    rcases hph : out.phys with e | phys
    · simp only [List.filterMap_cons]
      exact congrArg (List.cons _) (ih (i + 1) pool)
    · rw [List.filterMap_append, physPass_phy, ih (i + 1) _]

theorem drainSi_phy : ∀ (pool : List SiItem2),
    (drainSi pool).filterMap (fun rec => rec.phy) = [] := by
  intro pool
  induction pool with
  | nil => rfl
  | cons it rest ih =>
    rcases it with e | sr
    · simpa [drainSi, List.filterMap_cons] using ih
    · simpa [drainSi, List.filterMap_cons] using ih

theorem drainSi_si : ∀ (pool : List SiItem2),
    (drainSi pool).filterMap (fun rec => rec.si) = pool.map item2si := by
  intro pool
  induction pool with
  | nil => rfl
  | cons it rest ih =>
    rcases it with e | sr
    · simp only [drainSi, List.filterMap_cons, List.map_cons, item2si]
      exact congrArg (List.cons _) ih
    · simp only [drainSi, List.filterMap_cons, List.map_cons, item2si]
      exact congrArg (List.cons _) ih

theorem drainSi_mon : ∀ (pool : List SiItem2),
    (drainSi pool).filterMap recMon = pool.filterMap item2mon := by
  intro pool
  induction pool with
  | nil => rfl
  | cons it rest ih =>
    rcases it with e | sr
    · simpa [drainSi, List.filterMap_cons, recMon, item2mon] using ih
    · simp only [drainSi, List.filterMap_cons, recMon, item2mon]
      rcases sr.mon with _ | mr
      · exact ih
      · rcases mr with m | d
        · exact congrArg (List.cons _) ih
        · exact ih

theorem siPrePass_items (dds : DisplayDevs) :
    ∀ (sis : List SiItem) (pool : List MonDev),
      ((siPrePass dds sis pool).1).map item2si = sis := by
  intro sis
  induction sis with
  | nil => intro pool; rfl
  | cons it rest ih =>
    intro pool
    rcases it with t | e
    · simp only [siPrePass, List.map_cons, item2si]
      exact congrArg (List.cons _) (ih _)
    · simp only [siPrePass, List.map_cons]
      rcases hfr : (findRemove (fun m => e.matchesMon m &&
          (dds.filter (fun d => e.matchesDev d.1)).any (fun d => d.1 == m.display))
            pool).1 with _ | m
      · rcases hhd : (dds.filter (fun d => e.matchesDev d.1)).head? with _ | d
        · simp only [hfr, hhd, item2si]
          exact congrArg (List.cons _) (ih _)
        · simp only [hfr, hhd, item2si]
          exact congrArg (List.cons _) (ih _)
      · simp only [hfr, item2si]
        exact congrArg (List.cons _) (ih _)

theorem filterMap_cons_toList {α β : Type _} (f : α → Option β) (x : α) (l : List α) :
    (x :: l).filterMap f = (f x).toList ++ l.filterMap f := by
  rcases h : f x with _ | b <;> simp [List.filterMap_cons, h]

theorem recMon_inr (phy : Option (Except Nat (Phy × Nat) × Nat)) (dn : Option Str)
    (dd : Option Nat) (si : Option (Except Nat SiEntry)) :
    recMon ⟨phy, dn, (dd.map .inr : MonRef), si⟩ = none := by
  rcases dd with _ | k <;> rfl

theorem physPass_si_perm :
    ∀ (ps : List Phy) (dd : Option Nat) (dn : Option Str) (oi ii : Nat)
      (pool : List SiItem2),
      ((((physPass dd dn oi ii ps pool).1).filterMap (fun rec => rec.si)) ++
        (((physPass dd dn oi ii ps pool).2).map item2si)).Perm (pool.map item2si) := by
  intro ps
  induction ps with
  | nil =>
    intro dd dn oi ii pool
    simp [physPass]
  | cons p ps ih =>
    intro dd dn oi ii pool
    simp only [physPass]
    rcases hfr : (findRemove (siMatchesDd dd) pool).1 with _ | x
    · have hpool := findRemove_none hfr
      simp only [List.filterMap_cons]
      rw [hpool]
      exact ih dd dn oi (ii + 1) pool
    · obtain ⟨_, hperm⟩ := findRemove_some hfr
      have hmap : (pool.map item2si).Perm
          (item2si x :: ((findRemove (siMatchesDd dd) pool).2).map item2si) :=
        hperm.map item2si
      rcases x with e | sr
      · simp only [List.filterMap_cons]
        refine List.Perm.trans ?_ hmap.symm
        rw [List.cons_append]
        exact (ih dd dn oi (ii + 1) _).cons (item2si (.error e))
      · simp only [List.filterMap_cons]
        refine List.Perm.trans ?_ hmap.symm
        rw [List.cons_append]
        exact (ih dd dn oi (ii + 1) _).cons (item2si (.ok sr))

theorem outputsPass_si_perm (dds : DisplayDevs) :
    ∀ (outs : List Output) (i : Nat) (pool : List SiItem2),
      ((((outputsPass dds i outs pool).1).filterMap (fun rec => rec.si)) ++
        (((outputsPass dds i outs pool).2).map item2si)).Perm (pool.map item2si) := by
  intro outs
  induction outs with
  | nil =>
    intro i pool
    simp [outputsPass]
  | cons out rest ih =>
    intro i pool
    simp only [outputsPass]
    rcases hph : out.phys with e | phys
    · simp only [List.filterMap_cons]
      exact ih (i + 1) pool
    · rw [List.filterMap_append, List.append_assoc]
      refine List.Perm.trans (List.Perm.append_left _ (ih (i + 1) _)) ?_
      exact physPass_si_perm phys _ out.devName i 0 pool

theorem siPrePass_mon_perm (dds : DisplayDevs) :
    ∀ (sis : List SiItem) (pool : List MonDev),
      ((((siPrePass dds sis pool).1).filterMap item2mon) ++
        (siPrePass dds sis pool).2).Perm pool := by
  intro sis
  induction sis with
  | nil =>
    intro pool
    simp [siPrePass]
  | cons it rest ih =>
    intro pool
    rcases it with t | e
    · simp only [siPrePass, List.filterMap_cons, item2mon]
      exact ih pool
    · simp only [siPrePass]
      rcases hfr : (findRemove (fun m => e.matchesMon m &&
          (dds.filter (fun d => e.matchesDev d.1)).any (fun d => d.1 == m.display))
            pool).1 with _ | m
      · have hpool := findRemove_none hfr
        rcases hhd : (dds.filter (fun d => e.matchesDev d.1)).head? with _ | d
        · simp only [hfr, hhd, List.filterMap_cons, item2mon]
          rw [hpool]
          exact ih pool
        · simp only [hfr, hhd, List.filterMap_cons, item2mon]
          rw [hpool]
          exact ih pool
      · obtain ⟨_, hperm⟩ := findRemove_some hfr
        simp only [hfr, List.filterMap_cons, item2mon]
        refine List.Perm.trans ?_ hperm.symm
        rw [List.cons_append]
        exact (ih _).cons m

theorem physPass_mon_perm :
    ∀ (ps : List Phy) (dd : Option Nat) (dn : Option Str) (oi ii : Nat)
      (pool : List SiItem2),
      ((((physPass dd dn oi ii ps pool).1).filterMap recMon) ++
        (((physPass dd dn oi ii ps pool).2).filterMap item2mon)).Perm
        (pool.filterMap item2mon) := by
  intro ps
  induction ps with
  | nil =>
    intro dd dn oi ii pool
    simp [physPass]
  | cons p ps ih =>
    intro dd dn oi ii pool
    simp only [physPass]
    rcases hfr : (findRemove (siMatchesDd dd) pool).1 with _ | x
    · have hpool := findRemove_none hfr
      simp only [List.filterMap_cons, recMon_inr]
      rw [hpool]
      exact ih dd dn oi (ii + 1) pool
    · obtain ⟨_, hperm⟩ := findRemove_some hfr
      have hmap : (pool.filterMap item2mon).Perm
          ((item2mon x).toList ++
            ((findRemove (siMatchesDd dd) pool).2).filterMap item2mon) :=
        (hperm.filterMap item2mon).trans (by rw [filterMap_cons_toList])
      rcases x with e | sr
      · simp only [List.filterMap_cons, recMon_inr]
        refine List.Perm.trans ?_ hmap.symm
        simp only [item2mon, Option.toList, List.nil_append]
        exact ih dd dn oi (ii + 1) _
      · simp only [List.filterMap_cons]
        rcases hm : sr.mon with _ | mr
        · simp only [recMon, hm]
          refine List.Perm.trans ?_ hmap.symm
          simp only [item2mon, hm, Option.toList, List.nil_append]
          exact ih dd dn oi (ii + 1) _
        · rcases mr with m | d
          · simp only [recMon, hm]
            refine List.Perm.trans ?_ hmap.symm
            simp only [item2mon, hm, Option.toList]
            rw [List.cons_append, List.singleton_append]
            exact (ih dd dn oi (ii + 1) _).cons m
          · simp only [recMon, hm]
            refine List.Perm.trans ?_ hmap.symm
            simp only [item2mon, hm, Option.toList, List.nil_append]
            exact ih dd dn oi (ii + 1) _

theorem outputsPass_mon_perm (dds : DisplayDevs) :
    ∀ (outs : List Output) (i : Nat) (pool : List SiItem2),
      ((((outputsPass dds i outs pool).1).filterMap recMon) ++
        (((outputsPass dds i outs pool).2).filterMap item2mon)).Perm
        (pool.filterMap item2mon) := by
  intro outs
  induction outs with
  | nil =>
    intro i pool
    simp [outputsPass]
  | cons out rest ih =>
    intro i pool
    simp only [outputsPass]
    rcases hph : out.phys with e | phys
    · simp only [List.filterMap_cons, recMon_inr]
      exact ih (i + 1) pool
    · rw [List.filterMap_append, List.append_assoc]
      refine List.Perm.trans (List.Perm.append_left _ (ih (i + 1) _)) ?_
      exact physPass_mon_perm phys _ out.devName i 0 pool

/-- C3 as amended: (1) the physical-monitor source elements (and failed
per-output enumerations) each appear in exactly one output record, in order;
(2) the present device-info entries each appear in exactly one output record
(matched or drained); (3) no monitor device is matched twice — the matched
monitor devices together with the leftover pool are a permutation of the
source pool, the leftover being dropped by the source rather than surfaced. -/
theorem correlation_amended (dds : DisplayDevs) (outs : List Output) (sis : List SiItem) :
    ((winCorrelate dds outs sis).1.filterMap (fun rec => rec.phy) = expandPhys 0 outs) ∧
    (((winCorrelate dds outs sis).1.filterMap (fun rec => rec.si)).Perm (siFilter sis)) ∧
    ((((winCorrelate dds outs sis).1.filterMap recMon) ++
      (winCorrelate dds outs sis).2).Perm (monitorDevices dds)) := by
  unfold winCorrelate
  dsimp only
  refine ⟨?_, ?_, ?_⟩
  · rw [List.filterMap_append, outputsPass_phy, drainSi_phy, List.append_nil]
  · rw [List.filterMap_append, drainSi_si]
    refine List.Perm.trans (outputsPass_si_perm dds outs 0 _) ?_
    rw [siPrePass_items]
  · rw [List.filterMap_append, drainSi_mon]
    refine List.Perm.trans (List.Perm.append_right _ (outputsPass_mon_perm dds outs 0 _)) ?_
    exact siPrePass_mon_perm dds (siFilter sis) (monitorDevices dds)

end DdcHi
